import Mathlib

/-!
Cache-aware matrix multiplication and the cache-size probe

A shallow embedding of

* `assignment3-cache-aware-programming/mat_mul.c`: the four kernels
  `naive_mat_mul`, `loop_opt_mat_mul`, `tile_mat_mul`, `combination_mat_mul`;
* `assignment2-catch-the-cache/cache-size-pred-soln.cpp`: the size sweep of
  `main` and the divisor computed by `measure_time_rdtsc`.

Conventions.

* A C `for` loop is the function `forLoop`, recursive on a fuel argument; it
  returns `none` when the fuel is used up while the loop condition still holds,
  so a loop that never leaves (a tile step of zero) has no result.
* The arrays `A`, `B`, `C` are lists read with `xs[i]?`; an access outside the
  array makes the whole kernel return `none`.
* The `int` loop counters and indices are natural numbers with checked
  arithmetic: every `int` product and sum the kernels form (`i * size + k`,
  `start + block_size`, the loop increments) goes through `intMul` and
  `intAdd`, which return `none` when the mathematical result exceeds `INT_MAX`
  (signed overflow is undefined behaviour in C).  A kernel that overflows has
  no result.  Negative `int` values do not occur for `0 ≤ size`.
* The scalar type is a parameter `α` carrying only `+` and `*`; no law of
  arithmetic is assumed unless a theorem says so.
* Every kernel carries a ghost log of `Event`s: one `Event.upd i k j` for each
  executed statement `C[i*size+j] += A[i*size+k] * B[k*size+j]`, and one
  `Event.tile` for each tile entered.
-/

namespace CacheLab

/-! ## Data model -/

/-- Ghost events recorded while a kernel runs. -/
inductive Event where
  | upd (i k j : Nat) : Event
  | tile (ii kk jj i_end k_end j_end : Nat) : Event
  deriving DecidableEq, Repr

/-- The mutable state of a kernel: the accumulator `C` and the ghost log. -/
structure Mem (α : Type) where
  C : List α
  log : List Event
  deriving DecidableEq, Repr

/-- Largest value of a 32-bit `int`. -/
def INT_MAX : Nat := 2147483647

variable {α : Type}

/-! ## Checked `int` arithmetic -/

/-- The sum `a + b` of two non-negative `int`s; `none` on signed overflow. -/
def intAdd (a b : Nat) : Option Nat :=
  if a + b ≤ INT_MAX then some (a + b) else none

/-- The product `a * b` of two non-negative `int`s; `none` on signed overflow. -/
def intMul (a b : Nat) : Option Nat :=
  if a * b ≤ INT_MAX then some (a * b) else none

/-- The index expression `r * size + c`, computed in `int`. -/
def index (r size c : Nat) : Option Nat :=
  match intMul r size with
  | none => none
  | some p => intAdd p c

/-- The read `M[r * size + c]`; `none` when the index overflows or lies outside
the array. -/
def load (M : List α) (r size c : Nat) : Option α :=
  match index r size c with
  | none => none
  | some p => M[p]?

/-! ## Loops -/

/-- The loop `for (int v = v0; v < hi; v += step) body`, threaded through a
state; `none` when `fuel` iterations do not reach `v ≥ hi`, when the body
fails, or when the increment `v += step` overflows. -/
def forLoop {σ : Type} : Nat → Nat → Nat → Nat → (Nat → σ → Option σ) → σ → Option σ
  | 0, v, hi, _, _, s => if v < hi then none else some s
  | fuel + 1, v, hi, step, body, s =>
      if v < hi then
        match body v s with
        | none => none
        | some s1 =>
            match intAdd v step with
            | none => none
            | some v1 => forLoop fuel v1 hi step body s1
      else some s

/-! ## mat_mul.c -/

/-- The statement `C[i * size + j] += a_val * B[k * size + j];`. -/
def accumulate [Add α] [Mul α] (B : List α) (size : Nat) (a_val : α) (i k j : Nat)
    (m : Mem α) : Option (Mem α) :=
  match load B k size j, index i size j with
  | some b, some ij =>
      match m.C[ij]? with
      | some c => some ⟨m.C.set ij (c + a_val * b), m.log ++ [Event.upd i k j]⟩
      | none => none
  | _, _ => none

/-- The tile end `(s + block_size < size) ? s + block_size : size`, with the sum
`s + block_size` computed in `int`. -/
def clippedEnd (s block_size size : Nat) : Option Nat :=
  match intAdd s block_size with
  | none => none
  | some e => some (if e < size then e else size)

/-- Naive kernel, loops in the order `i`, `j`, `k` (mat_mul.c, lines 17-26). -/
def naive_mat_mul [Add α] [Mul α] (A B C : List α) (size : Nat) : Option (Mem α) :=
  forLoop size 0 size 1 (fun i m =>
    forLoop size 0 size 1 (fun j m =>
      forLoop size 0 size 1 (fun k m =>
        match load A i size k with
        | none => none
        | some a => accumulate B size a i k j m) m) m) ⟨C, []⟩

/-- Loop-reordered kernel, loops in the order `i`, `k`, `j` with `a_val` read
once per `(i, k)` (mat_mul.c, lines 32-42). -/
def loop_opt_mat_mul [Add α] [Mul α] (A B C : List α) (size : Nat) : Option (Mem α) :=
  forLoop size 0 size 1 (fun i m =>
    forLoop size 0 size 1 (fun k m =>
      match load A i size k with
      | none => none
      | some a_val =>
          forLoop size 0 size 1 (fun j m => accumulate B size a_val i k j m) m) m) ⟨C, []⟩

/-- Tiled kernel (mat_mul.c, lines 48-69): tiles in the order `ii`, `kk`, `jj`;
inside a tile the loops run in the order `i`, `k`, `j`. -/
def tile_mat_mul [Add α] [Mul α] (A B C : List α) (size block_size : Nat) :
    Option (Mem α) :=
  forLoop size 0 size block_size (fun ii m =>
    forLoop size 0 size block_size (fun kk m =>
      forLoop size 0 size block_size (fun jj m =>
        match clippedEnd ii block_size size, clippedEnd kk block_size size,
            clippedEnd jj block_size size with
        | some i_end, some k_end, some j_end =>
            forLoop (i_end - ii) ii i_end 1 (fun i m =>
              forLoop (k_end - kk) kk k_end 1 (fun k m =>
                match load A i size k with
                | none => none
                | some a_val =>
                    forLoop (j_end - jj) jj j_end 1
                      (fun j m => accumulate B size a_val i k j m) m) m)
              ⟨m.C, m.log ++ [Event.tile ii kk jj i_end k_end j_end]⟩
        | _, _, _ => none) m) m) ⟨C, []⟩

/-- Combined kernel (mat_mul.c, lines 74-95); the body is the one of
`tile_mat_mul`, statement for statement. -/
def combination_mat_mul [Add α] [Mul α] (A B C : List α) (size block_size : Nat) :
    Option (Mem α) :=
  forLoop size 0 size block_size (fun ii m =>
    forLoop size 0 size block_size (fun kk m =>
      forLoop size 0 size block_size (fun jj m =>
        match clippedEnd ii block_size size, clippedEnd kk block_size size,
            clippedEnd jj block_size size with
        | some i_end, some k_end, some j_end =>
            forLoop (i_end - ii) ii i_end 1 (fun i m =>
              forLoop (k_end - kk) kk k_end 1 (fun k m =>
                match load A i size k with
                | none => none
                | some a_val =>
                    forLoop (j_end - jj) jj j_end 1
                      (fun j m => accumulate B size a_val i k j m) m) m)
              ⟨m.C, m.log ++ [Event.tile ii kk jj i_end k_end j_end]⟩
        | _, _, _ => none) m) m) ⟨C, []⟩

/-! ## Event semantics (specification side) -/

/-- Values taken by the loop variable of `for (v = v0; v < hi; v += step)`
within `fuel` iterations, as long as no increment overflows. -/
def visits : Nat → Nat → Nat → Nat → List Nat
  | 0, _, _, _ => []
  | fuel + 1, v, hi, step => if v < hi then v :: visits fuel (v + step) hi step else []

/-- Effect of one logged event on the state, with exact index arithmetic: an
update event adds `A[i*size+k] * B[k*size+j]` to `C[i*size+j]`, a tile event
changes no cell. -/
def applyEvent [Add α] [Mul α] (A B : List α) (size : Nat) (m : Mem α) : Event → Mem α
  | Event.upd i k j =>
      match A[i * size + k]?, B[k * size + j]?, m.C[i * size + j]? with
      | some a, some b, some c =>
          ⟨m.C.set (i * size + j) (c + a * b), m.log ++ [Event.upd i k j]⟩
      | _, _, _ => ⟨m.C, m.log ++ [Event.upd i k j]⟩
  | Event.tile ii kk jj ie ke je => ⟨m.C, m.log ++ [Event.tile ii kk jj ie ke je]⟩

/-- Effect of a sequence of events, first event first. -/
def run [Add α] [Mul α] (A B : List α) (size : Nat) (evs : List Event) (m : Mem α) : Mem α :=
  evs.foldl (applyEvent A B size) m

/-- Clipped end of the tile starting at `s`: `(s + block_size < size) ? s + block_size : size`. -/
def tileEnd (s block_size size : Nat) : Nat :=
  if s + block_size < size then s + block_size else size

/-- Events of the naive kernel: loops `i`, `j`, `k`. -/
def naiveEvents (size : Nat) : List Event :=
  (visits size 0 size 1).flatMap fun i =>
    (visits size 0 size 1).flatMap fun j =>
      (visits size 0 size 1).flatMap fun k => [Event.upd i k j]

/-- Events of the loop-reordered kernel: loops `i`, `k`, `j`. -/
def loopOptEvents (size : Nat) : List Event :=
  (visits size 0 size 1).flatMap fun i =>
    (visits size 0 size 1).flatMap fun k =>
      (visits size 0 size 1).flatMap fun j => [Event.upd i k j]

/-- Indices of one dimension covered by the tile starting at `s`:
`for (x = s; x < tileEnd s; x++)`. -/
def tileRange (size block_size s : Nat) : List Nat :=
  visits (tileEnd s block_size size - s) s (tileEnd s block_size size) 1

/-- Events of one tile: the tile marker, then loops `i`, `k`, `j` over the tile. -/
def oneTileEvents (size block_size ii kk jj : Nat) : List Event :=
  Event.tile ii kk jj (tileEnd ii block_size size) (tileEnd kk block_size size)
      (tileEnd jj block_size size) ::
    (tileRange size block_size ii).flatMap fun i =>
      (tileRange size block_size kk).flatMap fun k =>
        (tileRange size block_size jj).flatMap fun j => [Event.upd i k j]

/-- Events of the tiled kernels: tiles in the order `ii`, `kk`, `jj`. -/
def tileEvents (size block_size : Nat) : List Event :=
  (visits size 0 size block_size).flatMap fun ii =>
    (visits size 0 size block_size).flatMap fun kk =>
      (visits size 0 size block_size).flatMap fun jj =>
        oneTileEvents size block_size ii kk jj

/-- The index triples `(i, k, j)` of the update events of a log, in order. -/
def triples (evs : List Event) : List (Nat × Nat × Nat) :=
  evs.filterMap fun e =>
    match e with
    | Event.upd i k j => some (i, k, j)
    | Event.tile _ _ _ _ _ _ => none

/-- The reduction indices `k` of the updates made to cell `(i, j)`, in order. -/
def ksOf (i j : Nat) (evs : List Event) : List Nat :=
  evs.filterMap fun e =>
    match e with
    | Event.upd i1 k j1 => if i1 = i ∧ j1 = j then some k else none
    | Event.tile _ _ _ _ _ _ => none

/-- The tiles entered, in order. -/
def tilesOf (evs : List Event) : List Event :=
  evs.filter fun e =>
    match e with
    | Event.upd _ _ _ => false
    | Event.tile _ _ _ _ _ _ => true

/-- Left-to-right accumulation `c += A[i*size+k] * B[k*size+j]` over the listed `k`. -/
def dotFrom [Add α] [Mul α] (A B : List α) (size i j : Nat) (c : α) (ks : List Nat) : α :=
  ks.foldl (fun c k =>
    match A[i * size + k]?, B[k * size + j]? with
    | some a, some b => c + a * b
    | _, _ => c) c

/-- An update event stays inside a `size × size` matrix. -/
def EventBelow (size : Nat) : Event → Prop
  | Event.upd i k j => i < size ∧ k < size ∧ j < size
  | Event.tile _ _ _ _ _ _ => True

/-- Entry `(i, j)` of a row-major `size × size` matrix. -/
def entry [Zero α] (M : List α) (size i j : Nat) : α :=
  M.getD (i * size + j) 0

/-- The contract `C += A × B` of the kernels, as the specification words it:
`C` is `C0` with the matrix product of `A` and `B` added, entry by entry. -/
def ProductAdded [CommRing α] (A B C0 : List α) (N : Nat) (C : List α) : Prop :=
  C.length = N * N ∧
    ∀ i j, i < N → j < N →
      entry C N i j = entry C0 N i j + ∑ k ∈ Finset.range N, entry A N i k * entry B N k j

/-- What a logged event needs to be safe in C: an update event indexes `A`,
`B` and `C` inside `[0, size * size)`, and the `int` sums `start + block_size`
formed for a tile do not exceed `INT_MAX`. -/
def EventSafe (size block_size : Nat) : Event → Prop
  | Event.upd i k j =>
      i * size + k < size * size ∧ k * size + j < size * size ∧ i * size + j < size * size
  | Event.tile ii kk jj _ _ _ =>
      ii + block_size ≤ INT_MAX ∧ kk + block_size ≤ INT_MAX ∧ jj + block_size ≤ INT_MAX

/-- The index triples of a log are exactly `[0,N)³`, each once, and every
tile entered is clipped at `min (start + block_size) N`. -/
def CoversOnce (N block_size : Nat) (log : List Event) : Prop :=
  (triples log).Nodup ∧
  (∀ i k j, (i, k, j) ∈ triples log ↔ i < N ∧ k < N ∧ j < N) ∧
  (∀ i k j, List.count (i, k, j) (triples log) = if i < N ∧ k < N ∧ j < N then 1 else 0) ∧
  (triples log).Perm
    (List.product (List.range N) (List.product (List.range N) (List.range N))) ∧
  ∀ ii kk jj ie ke je, Event.tile ii kk jj ie ke je ∈ log →
    ie = min (ii + block_size) N ∧ ke = min (kk + block_size) N ∧
      je = min (jj + block_size) N

/-- The sweep loop of `main`,
`for (int kb = 1; kb <= 24000; kb = min(kb*2, kb+1024)) sizes_kb.push_back(kb);`,
from a current `kb` and list.  The result is `none` when the fuel runs out
while `kb <= 24000`, or when `kb*2` or `kb+1024` exceeds `INT_MAX`. -/
def sweepLoop : Nat → Nat → List Nat → Option (List Nat)
  | 0, kb, sizes_kb => if kb ≤ 24000 then none else some sizes_kb
  | fuel + 1, kb, sizes_kb =>
      if kb ≤ 24000 then
        if kb * 2 ≤ INT_MAX ∧ kb + 1024 ≤ INT_MAX then
          sweepLoop fuel (min (kb * 2) (kb + 1024)) (sizes_kb ++ [kb])
        else none
      else some sizes_kb

/-- The list `sizes_kb` of `main`: the sweep loop started at `kb = 1` on the
empty vector. -/
def sizes_kb (fuel : Nat) : Option (List Nat) :=
  sweepLoop fuel 1 []

/-- The list the sweep produces: powers of two up to 1024, then steps of 1024. -/
def sweepValues : List Nat :=
  [1, 2, 4, 8, 16, 32, 64, 128, 256, 512, 1024, 2048, 3072, 4096, 5120, 6144, 7168,
   8192, 9216, 10240, 11264, 12288, 13312, 14336, 15360, 16384, 17408, 18432, 19456,
   20480, 21504, 22528, 23552]

theorem run_nil [Add α] [Mul α] (A B : List α) (size : Nat) (m : Mem α) :
    run A B size [] m = m := rfl

theorem run_cons [Add α] [Mul α] (A B : List α) (size : Nat) (e : Event) (evs : List Event)
    (m : Mem α) : run A B size (e :: evs) m = run A B size evs (applyEvent A B size m e) := rfl

theorem run_append [Add α] [Mul α] (A B : List α) (size : Nat) (e1 e2 : List Event)
    (m : Mem α) : run A B size (e1 ++ e2) m = run A B size e2 (run A B size e1 m) := by
  simp [run, List.foldl_append]

theorem applyEvent_length [Add α] [Mul α] (A B : List α) (size : Nat) (m : Mem α) (e : Event) :
    (applyEvent A B size m e).C.length = m.C.length := by
  cases e with
  | upd i k j =>
    simp only [applyEvent]
    split <;> simp
  | tile ii kk jj ie ke je => simp [applyEvent]

theorem applyEvent_log [Add α] [Mul α] (A B : List α) (size : Nat) (m : Mem α) (e : Event) :
    (applyEvent A B size m e).log = m.log ++ [e] := by
  cases e with
  | upd i k j =>
    simp only [applyEvent]
    split <;> simp
  | tile ii kk jj ie ke je => simp [applyEvent]

theorem run_length [Add α] [Mul α] (A B : List α) (size : Nat) (evs : List Event) :
    ∀ m : Mem α, (run A B size evs m).C.length = m.C.length := by
  induction evs with
  | nil => intro m; rfl
  | cons e evs ih => intro m; rw [run_cons, ih, applyEvent_length]

theorem run_log [Add α] [Mul α] (A B : List α) (size : Nat) (evs : List Event) :
    ∀ m : Mem α, (run A B size evs m).log = m.log ++ evs := by
  induction evs with
  | nil => intro m; simp [run_nil]
  | cons e evs ih => intro m; rw [run_cons, ih, applyEvent_log]; simp

theorem index_lt {size i j : Nat} (hi : i < size) (hj : j < size) :
    i * size + j < size * size := by
  have h : (i + 1) * size ≤ size * size := Nat.mul_le_mul_right size hi
  have h2 : (i + 1) * size = i * size + size := by ring
  omega

theorem visits_done (fuel v hi step : Nat) (h : hi ≤ v) : visits fuel v hi step = [] := by
  have : ¬ v < hi := by omega
  cases fuel <;> simp [visits, this]

theorem mem_visits (hi step : Nat) : ∀ (fuel v x : Nat), x ∈ visits fuel v hi step →
    x < hi ∧ (x = v ∨ v + step ≤ x) := by
  intro fuel
  induction fuel with
  | zero => intro v x h; simp [visits] at h
  | succ fuel ih =>
    intro v x h
    by_cases hv : v < hi
    · simp only [visits, hv, if_true, List.mem_cons] at h
      rcases h with rfl | h
      · exact ⟨hv, Or.inl rfl⟩
      · have := ih (v + step) x h
        omega
    · simp [visits, hv] at h

/-! ## Where the `int` arithmetic is exact -/

theorem size_le_int (size : Nat) (hsz : size * size ≤ INT_MAX) : size ≤ INT_MAX := by
  rcases Nat.eq_zero_or_pos size with h | h
  · subst h; exact Nat.zero_le _
  · exact le_trans (Nat.le_mul_self size) hsz

theorem intAdd_eq (a b : Nat) (h : a + b ≤ INT_MAX) : intAdd a b = some (a + b) := by
  simp [intAdd, h]

theorem index_eq (size i j : Nat) (hsz : size * size ≤ INT_MAX) (hi : i < size)
    (hj : j < size) : index i size j = some (i * size + j) := by
  have h := index_lt hi hj
  have h1 : i * size ≤ INT_MAX := by omega
  have h2 : i * size + j ≤ INT_MAX := by omega
  simp [index, intMul, intAdd, h1, h2]

theorem load_eq (M : List α) (size i j : Nat) (hsz : size * size ≤ INT_MAX) (hi : i < size)
    (hj : j < size) : load M i size j = M[i * size + j]? := by
  simp [load, index_eq size i j hsz hi hj]

theorem clippedEnd_eq (s block_size size : Nat) (h : s + block_size ≤ INT_MAX) :
    clippedEnd s block_size size = some (tileEnd s block_size size) := by
  simp [clippedEnd, intAdd_eq s block_size h, tileEnd]

/-- The tile starts of a dimension never make `start + block_size` overflow. -/
theorem tile_start_fits (size block_size s : Nat) (hsz : size * size ≤ INT_MAX)
    (hbs : block_size ≤ INT_MAX) (hs : s ∈ visits size 0 size block_size) :
    s + block_size ≤ INT_MAX := by
  obtain ⟨hlt, h0 | hge⟩ := mem_visits size block_size size 0 s hs
  · omega
  · have h2 : 2 ≤ size ∨ size < 2 := by omega
    rcases h2 with h2 | h2
    · have : 2 * size ≤ size * size := Nat.mul_le_mul_right size h2
      omega
    · have : block_size ≤ INT_MAX := hbs
      omega

/-- Inside the arrays, and with `size * size` an `int`, the statement
`C[i*size+j] += a_val * B[k*size+j]` has the effect of its event. -/
theorem accumulate_eq [Add α] [Mul α] (A B : List α) (size : Nat) (a : α) (i k j : Nat)
    (m : Mem α) (hsz : size * size ≤ INT_MAX) (hA : A[i * size + k]? = some a)
    (hB : B.length = size * size) (hC : m.C.length = size * size) (hi : i < size)
    (hk : k < size) (hj : j < size) :
    accumulate B size a i k j m = some (applyEvent A B size m (Event.upd i k j)) := by
  have h1 : k * size + j < B.length := by rw [hB]; exact index_lt hk hj
  have h2 : i * size + j < m.C.length := by rw [hC]; exact index_lt hi hj
  simp only [accumulate, applyEvent, hA, load_eq B size k j hsz hk hj,
    index_eq size i j hsz hi hj, List.getElem?_eq_getElem h1, List.getElem?_eq_getElem h2]

/-- A loop whose body has the effect of the events `evs x` has the effect of
the events of all its iterations, provided the fuel covers the range and no
increment overflows. -/
theorem forLoop_run_mem [Add α] [Mul α] (A B : List α) (size L hi step : Nat)
    (body : Nat → Mem α → Option (Mem α)) (evs : Nat → List Event) :
    ∀ (fuel v : Nat) (m : Mem α), hi ≤ v + fuel * step → m.C.length = L →
      (∀ x ∈ visits fuel v hi step, x + step ≤ INT_MAX) →
      (∀ x ∈ visits fuel v hi step, ∀ m1 : Mem α, m1.C.length = L →
        body x m1 = some (run A B size (evs x) m1)) →
      forLoop fuel v hi step body m
        = some (run A B size ((visits fuel v hi step).flatMap evs) m) := by
  intro fuel
  induction fuel with
  | zero =>
    intro v m hf _ _ _
    have : ¬ v < hi := by omega
    simp [forLoop, visits, this, run_nil]
  | succ fuel ih =>
    intro v m hf hm hfit hbody
    by_cases hv : v < hi
    · have hvis : visits (fuel + 1) v hi step = v :: visits fuel (v + step) hi step := by
        simp [visits, hv]
      have hb := hbody v (by rw [hvis]; exact List.mem_cons_self _ _) m hm
      have hf2 : hi ≤ (v + step) + fuel * step := by
        have : (fuel + 1) * step = fuel * step + step := by ring
        omega
      have hm2 : (run A B size (evs v) m).C.length = L := by rw [run_length]; exact hm
      have hadd : intAdd v step = some (v + step) :=
        intAdd_eq v step (hfit v (by rw [hvis]; exact List.mem_cons_self _ _))
      have hfit2 : ∀ x ∈ visits fuel (v + step) hi step, x + step ≤ INT_MAX :=
        fun x hx => hfit x (by rw [hvis]; exact List.mem_cons_of_mem _ hx)
      have hbody2 : ∀ x ∈ visits fuel (v + step) hi step, ∀ m1 : Mem α, m1.C.length = L →
          body x m1 = some (run A B size (evs x) m1) :=
        fun x hx => hbody x (by rw [hvis]; exact List.mem_cons_of_mem _ hx)
      simp only [forLoop, hv, if_true, hb, hadd, hvis, List.flatMap_cons, run_append]
      exact ih (v + step) _ hf2 hm2 hfit2 hbody2
    · simp [forLoop, visits, hv, run_nil]

/-- The same for a unit-step loop `for (x = lo; x < hi; x++)` with `hi` an `int`. -/
theorem forLoop_run_unit [Add α] [Mul α] (A B : List α) (size L lo hi : Nat)
    (body : Nat → Mem α → Option (Mem α)) (evs : Nat → List Event) (hhi : hi ≤ INT_MAX)
    (hbody : ∀ x, x < hi → ∀ m : Mem α, m.C.length = L →
      body x m = some (run A B size (evs x) m))
    (fuel : Nat) (m : Mem α) (hf : hi ≤ lo + fuel) (hm : m.C.length = L) :
    forLoop fuel lo hi 1 body m
      = some (run A B size ((visits fuel lo hi 1).flatMap evs) m) := by
  refine forLoop_run_mem A B size L hi 1 body evs fuel lo m (by omega) hm ?_ ?_
  · intro x hx
    have := (mem_visits hi 1 fuel lo x hx).1
    omega
  · intro x hx m1 hm1
    exact hbody x (mem_visits hi 1 fuel lo x hx).1 m1 hm1

theorem run_single [Add α] [Mul α] (A B : List α) (size : Nat) (e : Event) (m : Mem α) :
    run A B size [e] m = applyEvent A B size m e := rfl

/-- The guarded read of `A` followed by the accumulation, inside the arrays. -/
theorem read_accumulate_eq [Add α] [Mul α] (A B : List α) (size i k j : Nat) (m : Mem α)
    (hsz : size * size ≤ INT_MAX)
    (hA : A.length = size * size) (hB : B.length = size * size)
    (hC : m.C.length = size * size) (hi : i < size) (hk : k < size) (hj : j < size) :
    (match load A i size k with
      | none => none
      | some a => accumulate B size a i k j m)
      = some (run A B size [Event.upd i k j] m) := by
  have h1 : i * size + k < A.length := by rw [hA]; exact index_lt hi hk
  have h2 : A[i * size + k]? = some A[i * size + k] := List.getElem?_eq_getElem h1
  rw [load_eq A size i k hsz hi hk, h2]
  exact accumulate_eq A B size _ i k j m hsz h2 hB hC hi hk hj

/-- The `j` loop of the reordered kernels, with `a_val` read before it. -/
theorem read_jloop_eq [Add α] [Mul α] (A B : List α) (size i k fuel lo hi : Nat) (m : Mem α)
    (hsz : size * size ≤ INT_MAX)
    (hA : A.length = size * size) (hB : B.length = size * size)
    (hC : m.C.length = size * size) (hi1 : i < size) (hk : k < size) (hhi : hi ≤ size)
    (hfuel : hi ≤ lo + fuel) :
    (match load A i size k with
      | none => none
      | some a_val => forLoop fuel lo hi 1 (fun j m => accumulate B size a_val i k j m) m)
      = some (run A B size ((visits fuel lo hi 1).flatMap fun j => [Event.upd i k j]) m) := by
  have h1 : i * size + k < A.length := by rw [hA]; exact index_lt hi1 hk
  have h2 : A[i * size + k]? = some A[i * size + k] := List.getElem?_eq_getElem h1
  have hint := size_le_int size hsz
  rw [load_eq A size i k hsz hi1 hk, h2]
  refine forLoop_run_unit A B size (size * size) lo hi _ _ (by omega) ?_ fuel m hfuel hC
  intro j hj m1 hm1
  exact accumulate_eq A B size _ i k j m1 hsz h2 hB hm1 hi1 hk (by omega)

/-- The naive kernel has the effect of its event list. -/
theorem naive_run [Add α] [Mul α] (A B C : List α) (size : Nat)
    (hsz : size * size ≤ INT_MAX)
    (hA : A.length = size * size) (hB : B.length = size * size)
    (hC : C.length = size * size) :
    naive_mat_mul A B C size = some (run A B size (naiveEvents size) ⟨C, []⟩) := by
  have hint := size_le_int size hsz
  unfold naive_mat_mul naiveEvents
  refine forLoop_run_unit A B size (size * size) 0 size _ _ hint ?_ size _ (by omega) hC
  intro i hi m hm
  refine forLoop_run_unit A B size (size * size) 0 size _ _ hint ?_ size _ (by omega) hm
  intro j hj m1 hm1
  refine forLoop_run_unit A B size (size * size) 0 size _ _ hint ?_ size _ (by omega) hm1
  intro k hk m2 hm2
  exact read_accumulate_eq A B size i k j m2 hsz hA hB hm2 hi hk hj

/-- The loop-reordered kernel has the effect of its event list. -/
theorem loop_opt_run [Add α] [Mul α] (A B C : List α) (size : Nat)
    (hsz : size * size ≤ INT_MAX)
    (hA : A.length = size * size) (hB : B.length = size * size)
    (hC : C.length = size * size) :
    loop_opt_mat_mul A B C size = some (run A B size (loopOptEvents size) ⟨C, []⟩) := by
  have hint := size_le_int size hsz
  unfold loop_opt_mat_mul loopOptEvents
  refine forLoop_run_unit A B size (size * size) 0 size _ _ hint ?_ size _ (by omega) hC
  intro i hi m hm
  refine forLoop_run_unit A B size (size * size) 0 size _ _ hint ?_ size _ (by omega) hm
  intro k hk m1 hm1
  exact read_jloop_eq A B size i k size 0 size m1 hsz hA hB hm1 hi hk (le_refl _) (by omega)

theorem tileEnd_le (s block_size size : Nat) :
    tileEnd s block_size size ≤ size := by
  unfold tileEnd; split <;> omega

theorem tileEnd_ge (s block_size size : Nat) (hs : s < size) :
    s ≤ tileEnd s block_size size := by
  unfold tileEnd; split <;> omega

/-- One tile has the effect of its event list. -/
theorem oneTile_run [Add α] [Mul α] (A B : List α) (size block_size ii kk jj : Nat)
    (m : Mem α) (hsz : size * size ≤ INT_MAX)
    (hA : A.length = size * size) (hB : B.length = size * size)
    (hC : m.C.length = size * size) (hii : ii < size) (hkk : kk < size) (hjj : jj < size)
    (fi : ii + block_size ≤ INT_MAX) (fk : kk + block_size ≤ INT_MAX)
    (fj : jj + block_size ≤ INT_MAX) :
    (match clippedEnd ii block_size size, clippedEnd kk block_size size,
        clippedEnd jj block_size size with
      | some i_end, some k_end, some j_end =>
          forLoop (i_end - ii) ii i_end 1 (fun i m =>
            forLoop (k_end - kk) kk k_end 1 (fun k m =>
              match load A i size k with
              | none => none
              | some a_val =>
                  forLoop (j_end - jj) jj j_end 1
                    (fun j m => accumulate B size a_val i k j m) m) m)
            ⟨m.C, m.log ++ [Event.tile ii kk jj i_end k_end j_end]⟩
      | _, _, _ => none)
      = some (run A B size (oneTileEvents size block_size ii kk jj) m) := by
  have hint := size_le_int size hsz
  have hie := tileEnd_le ii block_size size
  have hke := tileEnd_le kk block_size size
  have hje := tileEnd_le jj block_size size
  have hig := tileEnd_ge ii block_size size hii
  have hkg := tileEnd_ge kk block_size size hkk
  have hjg := tileEnd_ge jj block_size size hjj
  rw [clippedEnd_eq ii block_size size fi, clippedEnd_eq kk block_size size fk,
    clippedEnd_eq jj block_size size fj]
  unfold oneTileEvents tileRange
  rw [run_cons]
  have h0 : applyEvent A B size m (Event.tile ii kk jj (tileEnd ii block_size size)
      (tileEnd kk block_size size) (tileEnd jj block_size size))
      = ⟨m.C, m.log ++ [Event.tile ii kk jj (tileEnd ii block_size size)
          (tileEnd kk block_size size) (tileEnd jj block_size size)]⟩ := rfl
  rw [h0]
  refine forLoop_run_unit A B size (size * size) ii _ _ _ (by omega) ?_ _ _ (by omega) hC
  intro i hi m1 hm1
  refine forLoop_run_unit A B size (size * size) kk _ _ _ (by omega) ?_ _ _ (by omega) hm1
  intro k hk m2 hm2
  exact read_jloop_eq A B size i k _ jj _ m2 hsz hA hB hm2 (by omega) (by omega) hje (by omega)

/-- The tiled kernel has the effect of its event list. -/
theorem tile_run [Add α] [Mul α] (A B C : List α) (size block_size : Nat)
    (hsz : size * size ≤ INT_MAX) (hbs : 1 ≤ block_size) (hint : block_size ≤ INT_MAX)
    (hA : A.length = size * size) (hB : B.length = size * size)
    (hC : C.length = size * size) :
    tile_mat_mul A B C size block_size
      = some (run A B size (tileEvents size block_size) ⟨C, []⟩) := by
  have hfuel : size ≤ 0 + size * block_size := by
    have := Nat.mul_le_mul_left size hbs
    omega
  have hfit : ∀ x ∈ visits size 0 size block_size, x + block_size ≤ INT_MAX :=
    fun x hx => tile_start_fits size block_size x hsz hint hx
  have hlt : ∀ x ∈ visits size 0 size block_size, x < size :=
    fun x hx => (mem_visits size block_size size 0 x hx).1
  unfold tile_mat_mul tileEvents
  -- the bodies are only run at visited starts, so the loop lemma is used on
  -- bodies guarded by membership
  have key : ∀ (body : Nat → Mem α → Option (Mem α)) (evs : Nat → List Event),
      (∀ x ∈ visits size 0 size block_size, ∀ m : Mem α, m.C.length = size * size →
        body x m = some (run A B size (evs x) m)) →
      ∀ m : Mem α, m.C.length = size * size →
        forLoop size 0 size block_size body m
          = some (run A B size ((visits size 0 size block_size).flatMap evs) m) := by
    intro body evs hb
    exact fun m hm => forLoop_run_mem A B size (size * size) size block_size body evs
      size 0 m hfuel hm hfit (fun x hx m1 hm1 => hb x hx m1 hm1)
  refine key _ _ ?_ _ hC
  intro ii hii m hm
  refine key _ _ ?_ _ hm
  intro kk hkk m1 hm1
  refine key _ _ ?_ _ hm1
  intro jj hjj m2 hm2
  exact oneTile_run A B size block_size ii kk jj m2 hsz hA hB hm2 (hlt ii hii) (hlt kk hkk)
    (hlt jj hjj) (hfit ii hii) (hfit kk hkk) (hfit jj hjj)

/-- The combined kernel is the tiled kernel. -/
theorem combination_eq_tile [Add α] [Mul α] (A B C : List α) (size block_size : Nat) :
    combination_mat_mul A B C size block_size = tile_mat_mul A B C size block_size := rfl

/-! ## The loop variables as ranges -/

/-- A unit-step loop from `lo` to `hi` visits `lo, lo+1, ..., hi-1`. -/
theorem visits_one (hi : Nat) : ∀ (n lo : Nat), n = hi - lo →
    visits n lo hi 1 = List.range' lo n := by
  intro n
  induction n with
  | zero => intro lo _; rfl
  | succ n ih =>
    intro lo h
    have hlt : lo < hi := by omega
    simp only [visits, hlt, if_true, List.range'_succ]
    rw [ih (lo + 1) (by omega)]

/-- The clipped tiles `[s, tileEnd s)` of the starts visited from `v` make up,
in order and without gap or overlap, the interval `[v, size)`. -/
theorem tiles_cover (size block_size : Nat) (hbs : 1 ≤ block_size) :
    ∀ (fuel v : Nat), size ≤ v + fuel * block_size →
      ((visits fuel v size block_size).flatMap (tileRange size block_size))
        = List.range' v (size - v) := by
  unfold tileRange
  intro fuel
  induction fuel with
  | zero =>
    intro v h
    have : size - v = 0 := by omega
    simp [visits, this]
  | succ fuel ih =>
    intro v h
    by_cases hv : v < size
    · have h2 : size ≤ (v + block_size) + fuel * block_size := by
        have : (fuel + 1) * block_size = fuel * block_size + block_size := by ring
        omega
      simp only [visits, hv, if_true, List.flatMap_cons]
      rw [ih (v + block_size) h2, visits_one _ _ v rfl]
      by_cases hc : v + block_size < size
      · have e1 : tileEnd v block_size size - v = block_size := by
          simp only [tileEnd, hc, if_true]; omega
        rw [e1, List.range'_append_1]
        congr 1
        omega
      · have e1 : tileEnd v block_size size - v = size - v := by
          simp only [tileEnd, hc, if_false]
        have e2 : size - (v + block_size) = 0 := by omega
        rw [e1, e2]
        simp
    · have : size - v = 0 := by omega
      simp [visits, hv, this]

/-- The tiles of a whole dimension make up `[0, size)`. -/
theorem tiles_cover_all (size block_size : Nat) (hbs : 1 ≤ block_size) :
    (visits size 0 size block_size).flatMap (tileRange size block_size)
      = List.range' 0 size := by
  have h : size ≤ 0 + size * block_size := by
    have := Nat.mul_le_mul_left size hbs
    omega
  simpa using tiles_cover size block_size hbs size 0 h

/-! ## Selecting the updates of one cell -/

theorem flatMap_select {β : Type} (t : Nat → List Nat) (a : Nat) (M : List β) :
    ∀ S : List Nat, (S.flatMap t).Nodup →
      (S.flatMap fun s => if a ∈ t s then M else []) = if a ∈ S.flatMap t then M else [] := by
  intro S
  induction S with
  | nil => intro _; simp
  | cons s S ih =>
    intro hnd
    rw [List.flatMap_cons] at hnd
    have hnd2 := (List.nodup_append.1 hnd).2.1
    have hdis := (List.nodup_append.1 hnd).2.2
    rw [List.flatMap_cons, ih hnd2]
    by_cases h1 : a ∈ t s
    · have h2 : a ∉ S.flatMap t := fun h => hdis h1 h
      simp [h1, h2]
    · by_cases h2 : a ∈ S.flatMap t
      · simp [h1, h2]
      · simp [h1, h2]

theorem flatMap_select_eq {β : Type} (a : Nat) (M : List β) (S : List Nat) (hS : S.Nodup) :
    (S.flatMap fun s => if s = a then M else []) = if a ∈ S then M else [] := by
  have h := flatMap_select (fun s => [s]) a M S (by simpa using hS)
  simp only [List.mem_singleton, List.flatMap_singleton'] at h
  rw [← h]
  congr 1
  funext s
  by_cases hs : s = a
  · simp [hs]
  · have : ¬ a = s := fun h => hs h.symm
    simp [hs, this]

theorem flatMap_guard {β γ : Type} (P : Prop) [Decidable P] (f : γ → List β) (S : List γ) :
    (S.flatMap fun s => if P then f s else []) = if P then S.flatMap f else [] := by
  by_cases h : P <;> simp [h]

theorem ksOf_append (i j : Nat) (e1 e2 : List Event) :
    ksOf i j (e1 ++ e2) = ksOf i j e1 ++ ksOf i j e2 := by
  simp [ksOf]

theorem ksOf_flatMap {γ : Type} (i j : Nat) (f : γ → List Event) (S : List γ) :
    ksOf i j (S.flatMap f) = S.flatMap fun s => ksOf i j (f s) := by
  induction S with
  | nil => rfl
  | cons s S ih => simp [List.flatMap_cons, ksOf_append, ih]

theorem ksOf_upd (i j i1 k j1 : Nat) :
    ksOf i j [Event.upd i1 k j1] = if i1 = i then (if j1 = j then [k] else []) else [] := by
  by_cases h1 : i1 = i <;> by_cases h2 : j1 = j <;> simp [ksOf, h1, h2]

theorem ksOf_tile_cons (i j ii kk jj ie ke je : Nat) (evs : List Event) :
    ksOf i j (Event.tile ii kk jj ie ke je :: evs) = ksOf i j evs := by
  simp [ksOf]

/-- Loops nested `i`, `k`, `j` over lists without repetition update cell
`(i, j)` once for each `k`, in the order of the `k` loop. -/
theorem ksOf_ikj (i j : Nat) (I K J : List Nat) (hI : I.Nodup) (hJ : J.Nodup) :
    ksOf i j (I.flatMap fun i1 => K.flatMap fun k => J.flatMap fun j1 => [Event.upd i1 k j1])
      = if i ∈ I then (if j ∈ J then K else []) else [] := by
  simp only [ksOf_flatMap, ksOf_upd, flatMap_guard, flatMap_select_eq j _ J hJ,
    List.flatMap_singleton']
  exact flatMap_select_eq i _ I hI

/-- Loops nested `i`, `j`, `k` update cell `(i, j)` once for each `k`, in the
order of the `k` loop. -/
theorem ksOf_ijk (i j : Nat) (I K J : List Nat) (hI : I.Nodup) (hJ : J.Nodup) :
    ksOf i j (I.flatMap fun i1 => J.flatMap fun j1 => K.flatMap fun k => [Event.upd i1 k j1])
      = if i ∈ I then (if j ∈ J then K else []) else [] := by
  simp only [ksOf_flatMap, ksOf_upd, flatMap_guard, List.flatMap_singleton',
    flatMap_select_eq j _ J hJ]
  exact flatMap_select_eq i _ I hI

theorem tileRange_eq (size block_size s : Nat) :
    tileRange size block_size s = List.range' s (tileEnd s block_size size - s) :=
  visits_one _ _ s rfl

theorem tileRange_nodup (size block_size s : Nat) : (tileRange size block_size s).Nodup := by
  rw [tileRange_eq]; exact List.nodup_range' s _

theorem visits_all (size : Nat) : visits size 0 size 1 = List.range' 0 size :=
  visits_one size size 0 rfl

/-- In the naive kernel cell `(i, j)` is updated with `k = 0, 1, ..., size-1` in
this order. -/
theorem ksOf_naive (size i j : Nat) :
    ksOf i j (naiveEvents size)
      = if i < size then (if j < size then List.range' 0 size else []) else [] := by
  unfold naiveEvents
  rw [visits_all, ksOf_ijk i j _ _ _ (List.nodup_range' 0 size) (List.nodup_range' 0 size)]
  simp

/-- In the loop-reordered kernel cell `(i, j)` is updated with
`k = 0, 1, ..., size-1` in this order. -/
theorem ksOf_loopOpt (size i j : Nat) :
    ksOf i j (loopOptEvents size)
      = if i < size then (if j < size then List.range' 0 size else []) else [] := by
  unfold loopOptEvents
  rw [visits_all, ksOf_ikj i j _ _ _ (List.nodup_range' 0 size) (List.nodup_range' 0 size)]
  simp

theorem ksOf_oneTile (size block_size ii kk jj i j : Nat) :
    ksOf i j (oneTileEvents size block_size ii kk jj)
      = if i ∈ tileRange size block_size ii then
          (if j ∈ tileRange size block_size jj then tileRange size block_size kk else [])
        else [] := by
  unfold oneTileEvents
  rw [ksOf_tile_cons]
  exact ksOf_ikj i j _ _ _ (tileRange_nodup _ _ _) (tileRange_nodup _ _ _)

/-- In the tiled kernel cell `(i, j)` is updated with `k = 0, 1, ..., size-1` in
this order, whatever the tile edge. -/
theorem ksOf_tile (size block_size i j : Nat) (hbs : 1 ≤ block_size) :
    ksOf i j (tileEvents size block_size)
      = if i < size then (if j < size then List.range' 0 size else []) else [] := by
  have hcov := tiles_cover_all size block_size hbs
  have hnd : ((visits size 0 size block_size).flatMap (tileRange size block_size)).Nodup := by
    rw [hcov]; exact List.nodup_range' 0 size
  unfold tileEvents
  simp only [ksOf_flatMap, ksOf_oneTile, flatMap_guard]
  simp only [flatMap_select (tileRange size block_size) j _ _ hnd, flatMap_guard]
  rw [flatMap_select (tileRange size block_size) i _ _ hnd]
  have hc : ((visits size 0 size block_size).flatMap fun s => tileRange size block_size s)
      = List.range' 0 size := hcov
  simp only [hc]
  simp

/-! ## The value of one cell -/

theorem index_inj {size i j i1 j1 : Nat} (hj : j < size) (hj1 : j1 < size)
    (h : i1 * size + j1 = i * size + j) : i1 = i ∧ j1 = j := by
  rcases Nat.lt_trichotomy i1 i with hlt | heq | hgt
  · have h1 : (i1 + 1) * size ≤ i * size := Nat.mul_le_mul_right size hlt
    have h2 : (i1 + 1) * size = i1 * size + size := by ring
    omega
  · subst heq
    exact ⟨rfl, by omega⟩
  · have h1 : (i + 1) * size ≤ i1 * size := Nat.mul_le_mul_right size hgt
    have h2 : (i + 1) * size = i * size + size := by ring
    omega

theorem dotFrom_cons [Add α] [Mul α] (A B : List α) (size i j : Nat) (c : α) (k : Nat)
    (ks : List Nat) :
    dotFrom A B size i j c (k :: ks)
      = dotFrom A B size i j
          (match A[i * size + k]?, B[k * size + j]? with
            | some a, some b => c + a * b
            | _, _ => c) ks := rfl

/-- One event changes cell `(i, j)` only when it is an update of that cell. -/
theorem applyEvent_cell [Add α] [Mul α] (A B : List α) (size i j : Nat) (hj : j < size)
    (m : Mem α) (e : Event) (he : EventBelow size e) :
    (applyEvent A B size m e).C[i * size + j]?
      = (m.C[i * size + j]?).map fun c => dotFrom A B size i j c (ksOf i j [e]) := by
  cases e with
  | tile ii kk jj ie ke je => simp [applyEvent, ksOf, dotFrom]
  | upd i1 k j1 =>
    obtain ⟨_, _, hj1⟩ := he
    by_cases hij : i1 = i ∧ j1 = j
    · obtain ⟨rfl, rfl⟩ := hij
      rw [ksOf_upd]
      simp only [if_true, applyEvent]
      cases hc : m.C[i1 * size + j1]? with
      | none => split <;> simp_all
      | some c =>
        have hlt : i1 * size + j1 < m.C.length := by
          by_contra hge
          have := List.getElem?_eq_none (Nat.le_of_not_lt hge)
          rw [this] at hc
          cases hc
        cases hA : A[i1 * size + k]? with
        | none => simp [dotFrom, hA, hc]
        | some a =>
          cases hB : B[k * size + j1]? with
          | none => simp [dotFrom, hA, hB, hc]
          | some b => simp [dotFrom, hA, hB, List.getElem?_set_self hlt]
    · have hne : i1 * size + j1 ≠ i * size + j := fun h => hij (index_inj hj hj1 h)
      have hk : ksOf i j [Event.upd i1 k j1] = [] := by
        rw [ksOf_upd]
        by_cases h1 : i1 = i
        · have h2 : ¬ j1 = j := fun h => hij ⟨h1, h⟩
          simp [h1, h2]
        · simp [h1]
      rw [hk]
      simp only [applyEvent]
      split
      · simp [dotFrom, List.getElem?_set_ne hne]
      · simp [dotFrom]

/-- After a sequence of events cell `(i, j)` holds its initial value
accumulated, left to right, over the `k` of the updates of that cell. -/
theorem run_cell [Add α] [Mul α] (A B : List α) (size i j : Nat) (hj : j < size) :
    ∀ (evs : List Event) (m : Mem α), (∀ e ∈ evs, EventBelow size e) →
      (run A B size evs m).C[i * size + j]?
        = (m.C[i * size + j]?).map fun c => dotFrom A B size i j c (ksOf i j evs) := by
  intro evs
  induction evs with
  | nil => intro m _; simp [run_nil, ksOf, dotFrom]
  | cons e evs ih =>
    intro m h
    have he : EventBelow size e := h e (List.mem_cons_self _ _)
    have hrest : ∀ e1 ∈ evs, EventBelow size e1 := fun e1 h1 => h e1 (List.mem_cons_of_mem _ h1)
    rw [run_cons, ih _ hrest, applyEvent_cell A B size i j hj m e he]
    have hk : ksOf i j (e :: evs) = ksOf i j [e] ++ ksOf i j evs := by
      rw [← ksOf_append]; rfl
    rw [hk]
    cases m.C[i * size + j]? with
    | none => rfl
    | some c => simp [dotFrom, List.foldl_append]

/-- Two event sequences that update every cell with the same `k` in the same
order leave the same matrix. -/
theorem run_C_congr [Add α] [Mul α] (A B : List α) (size : Nat) (ev1 ev2 : List Event)
    (m : Mem α) (hC : m.C.length = size * size)
    (h1 : ∀ e ∈ ev1, EventBelow size e) (h2 : ∀ e ∈ ev2, EventBelow size e)
    (hk : ∀ i j, ksOf i j ev1 = ksOf i j ev2) :
    (run A B size ev1 m).C = (run A B size ev2 m).C := by
  apply List.ext_getElem?
  intro n
  by_cases hn : n < size * size
  · have hpos : 0 < size := by
      rcases Nat.eq_zero_or_pos size with h0 | h0
      · subst h0; simp at hn
      · exact h0
    have hmod : n % size < size := Nat.mod_lt _ hpos
    have hdecomp : n = n / size * size + n % size := by
      have := Nat.div_add_mod n size
      rw [Nat.mul_comm] at this
      omega
    rw [hdecomp, run_cell A B size _ _ hmod ev1 m h1, run_cell A B size _ _ hmod ev2 m h2, hk]
  · have e1 : (run A B size ev1 m).C.length ≤ n := by rw [run_length, hC]; omega
    have e2 : (run A B size ev2 m).C.length ≤ n := by rw [run_length, hC]; omega
    rw [List.getElem?_eq_none e1, List.getElem?_eq_none e2]

/-! ## Every update stays inside the matrix -/

theorem mem_tileRange {size block_size s x : Nat} (h : x ∈ tileRange size block_size s) :
    s ≤ x ∧ x < tileEnd s block_size size ∧ x < size := by
  rw [tileRange_eq, List.mem_range'_1] at h
  have := tileEnd_le s block_size size
  omega

theorem below_naive (size : Nat) : ∀ e ∈ naiveEvents size, EventBelow size e := by
  intro e he
  simp only [naiveEvents, visits_all, List.mem_flatMap, List.mem_singleton,
    List.mem_range'_1] at he
  obtain ⟨i, hi, j, hj, k, hk, rfl⟩ := he
  exact ⟨by omega, by omega, by omega⟩

theorem below_loopOpt (size : Nat) : ∀ e ∈ loopOptEvents size, EventBelow size e := by
  intro e he
  simp only [loopOptEvents, visits_all, List.mem_flatMap, List.mem_singleton,
    List.mem_range'_1] at he
  obtain ⟨i, hi, k, hk, j, hj, rfl⟩ := he
  exact ⟨by omega, by omega, by omega⟩

theorem below_tile (size block_size : Nat) :
    ∀ e ∈ tileEvents size block_size, EventBelow size e := by
  intro e he
  simp only [tileEvents, oneTileEvents, List.mem_flatMap, List.mem_cons,
    List.not_mem_nil, or_false] at he
  obtain ⟨ii, _, kk, _, jj, _, h⟩ := he
  rcases h with rfl | ⟨i, hi, k, hk, j, hj, rfl⟩
  · trivial
  · exact ⟨(mem_tileRange hi).2.2, (mem_tileRange hk).2.2, (mem_tileRange hj).2.2⟩

/-! ## Agreement of the four kernels -/

/-- On `size × size` arrays with `size * size` an `int` the four kernels all return, leave the same matrix
for any initial accumulator, and update each cell in the order `k = 0, 1, ...`. -/
theorem kernels_agree [Add α] [Mul α] (A B C : List α) (size block_size : Nat)
    (hsz : size * size ≤ INT_MAX) (hbs : 1 ≤ block_size) (hint : block_size ≤ INT_MAX)
    (hA : A.length = size * size) (hB : B.length = size * size)
    (hC : C.length = size * size) :
    ∃ mn ml mt mc : Mem α,
      naive_mat_mul A B C size = some mn ∧
      loop_opt_mat_mul A B C size = some ml ∧
      tile_mat_mul A B C size block_size = some mt ∧
      combination_mat_mul A B C size block_size = some mc ∧
      ml.C = mn.C ∧ mt.C = mn.C ∧ mc.C = mn.C ∧
      ∀ i j, i < size → j < size →
        ksOf i j mn.log = List.range size ∧ ksOf i j ml.log = List.range size ∧
        ksOf i j mt.log = List.range size ∧ ksOf i j mc.log = List.range size := by
  have hmC : (⟨C, []⟩ : Mem α).C.length = size * size := hC
  have e1 : (run A B size (loopOptEvents size) ⟨C, []⟩).C
      = (run A B size (naiveEvents size) ⟨C, []⟩).C :=
    run_C_congr A B size _ _ _ hmC (below_loopOpt size) (below_naive size)
      (fun i j => by rw [ksOf_loopOpt, ksOf_naive])
  have e2 : (run A B size (tileEvents size block_size) ⟨C, []⟩).C
      = (run A B size (naiveEvents size) ⟨C, []⟩).C :=
    run_C_congr A B size _ _ _ hmC (below_tile size block_size) (below_naive size)
      (fun i j => by rw [ksOf_tile size block_size i j hbs, ksOf_naive])
  refine ⟨_, _, _, _, naive_run A B C size hsz hA hB hC, loop_opt_run A B C size hsz hA hB hC,
    tile_run A B C size block_size hsz hbs hint hA hB hC, ?_, e1, e2, e2, ?_⟩
  · rw [combination_eq_tile]
    exact tile_run A B C size block_size hsz hbs hint hA hB hC
  · intro i j hi hj
    simp only [run_log, List.nil_append]
    rw [ksOf_naive, ksOf_loopOpt, ksOf_tile size block_size i j hbs]
    simp [hi, hj, List.range_eq_range']

/-! ## The accumulated product over a commutative ring -/

theorem lookup_entry [Zero α] (M : List α) (size i j : Nat) (hM : M.length = size * size)
    (hi : i < size) (hj : j < size) : M[i * size + j]? = some (entry M size i j) := by
  have h : i * size + j < M.length := by rw [hM]; exact index_lt hi hj
  simp [entry, List.getElem?_eq_getElem h]

theorem entry_of_lookup [Zero α] (M : List α) (size i j : Nat) (x : α)
    (h : M[i * size + j]? = some x) : entry M size i j = x := by
  simp [entry, h]

theorem dotFrom_sum [CommRing α] (A B : List α) (N i j : Nat) (hA : A.length = N * N)
    (hB : B.length = N * N) (hi : i < N) (hj : j < N) (c : α) :
    ∀ n, n ≤ N → dotFrom A B N i j c (List.range' 0 n)
      = c + ∑ k ∈ Finset.range n, entry A N i k * entry B N k j := by
  intro n
  induction n with
  | zero => intro _; simp [dotFrom]
  | succ n ih =>
    intro hn
    have hlt : n < N := hn
    have ih1 := ih (by omega)
    unfold dotFrom at ih1 ⊢
    rw [List.range'_1_concat, List.foldl_append, ih1, Finset.sum_range_succ]
    simp only [List.foldl_cons, List.foldl_nil, Nat.zero_add,
      lookup_entry A N i n hA hi hlt, lookup_entry B N n j hB hlt hj]
    ring

/-- The cell formula for any event sequence that updates each cell with
`k = 0, 1, ..., N-1`. -/
theorem run_productAdded [CommRing α] (A B C0 : List α) (N : Nat) (evs : List Event)
    (hA : A.length = N * N) (hB : B.length = N * N) (hC : C0.length = N * N)
    (hbelow : ∀ e ∈ evs, EventBelow N e)
    (hk : ∀ i j, i < N → j < N → ksOf i j evs = List.range' 0 N) :
    ProductAdded A B C0 N (run A B N evs ⟨C0, []⟩).C := by
  refine ⟨by rw [run_length]; exact hC, ?_⟩
  intro i j hi hj
  have h := run_cell A B N i j hj evs ⟨C0, []⟩ hbelow
  rw [hk i j hi hj] at h
  have h0 : (⟨C0, []⟩ : Mem α).C[i * N + j]? = some (entry C0 N i j) :=
    lookup_entry C0 N i j hC hi hj
  rw [h0, Option.map_some', dotFrom_sum A B N i j hA hB hi hj _ N (le_refl _)] at h
  exact entry_of_lookup _ N i j _ h

theorem entry_zeros [Zero α] (n size i j : Nat) :
    entry (List.replicate n (0 : α)) size i j = 0 := by
  simp only [entry, List.getD_eq_getElem?_getD, List.getElem?_replicate]
  split <;> rfl

theorem productAdded_zeros [CommRing α] (A B C0 C Z : List α) (N : Nat)
    (h : ProductAdded A B C0 N C) (hz : ProductAdded A B (List.replicate (N * N) 0) N Z) :
    ∀ i j, i < N → j < N → entry C N i j = entry C0 N i j + entry Z N i j := by
  intro i j hi hj
  rw [h.2 i j hi hj, hz.2 i j hi hj, entry_zeros, zero_add]

/-! ## A single tile, and the sequence of index triples -/

/-- With a tile edge of at least `N ≥ 1` the tiled kernel enters the one tile
`[0,N) × [0,N) × [0,N)` and then does what the loop-reordered kernel does. -/
theorem tileEvents_single (N block_size : Nat) (hN : 1 ≤ N) (hbs : N ≤ block_size) :
    tileEvents N block_size = Event.tile 0 0 0 N N N :: loopOptEvents N := by
  have hv : visits N 0 N block_size = [0] := by
    obtain ⟨n, rfl⟩ : ∃ n, N = n + 1 := ⟨N - 1, by omega⟩
    simp [visits, visits_done n block_size (n + 1) block_size hbs]
  have he : tileEnd 0 block_size N = N := by
    have : ¬ 0 + block_size < N := by omega
    simp only [tileEnd, this, if_false]
  simp [tileEvents, oneTileEvents, tileRange, loopOptEvents, hv, he]

theorem applyEvent_C_congr [Add α] [Mul α] (A B : List α) (size : Nat) (m1 m2 : Mem α)
    (e : Event) (h : m1.C = m2.C) :
    (applyEvent A B size m1 e).C = (applyEvent A B size m2 e).C := by
  cases e with
  | upd i k j =>
    simp only [applyEvent, h]
    split <;> rfl
  | tile ii kk jj ie ke je => simpa [applyEvent] using h

theorem run_C_congr_log [Add α] [Mul α] (A B : List α) (size : Nat) (evs : List Event) :
    ∀ m1 m2 : Mem α, m1.C = m2.C → (run A B size evs m1).C = (run A B size evs m2).C := by
  induction evs with
  | nil => intro m1 m2 h; exact h
  | cons e evs ih =>
    intro m1 m2 h
    rw [run_cons, run_cons]
    exact ih _ _ (applyEvent_C_congr A B size m1 m2 e h)

theorem tilesOf_loopOpt (N : Nat) : tilesOf (loopOptEvents N) = [] := by
  unfold tilesOf
  rw [List.filter_eq_nil_iff]
  intro e he
  simp only [loopOptEvents, List.mem_flatMap, List.mem_singleton] at he
  obtain ⟨i, _, k, _, j, _, rfl⟩ := he
  simp

theorem count_triples (i k j : Nat) : ∀ evs : List Event,
    List.count (i, k, j) (triples evs) = List.count k (ksOf i j evs) := by
  intro evs
  induction evs with
  | nil => rfl
  | cons e evs ih =>
    cases e with
    | tile ii kk jj ie ke je =>
      have h1 : triples (Event.tile ii kk jj ie ke je :: evs) = triples evs := by
        simp [triples]
      rw [h1, ksOf_tile_cons, ih]
    | upd i1 k1 j1 =>
      have h1 : triples (Event.upd i1 k1 j1 :: evs) = (i1, k1, j1) :: triples evs := by
        simp [triples]
      have h2 : ksOf i j (Event.upd i1 k1 j1 :: evs)
          = ksOf i j [Event.upd i1 k1 j1] ++ ksOf i j evs := by
        rw [← ksOf_append]; rfl
      rw [h1, h2, ksOf_upd, List.count_cons, List.count_append, ih]
      by_cases hi : i1 = i <;> by_cases hj : j1 = j <;> by_cases hk : k1 = k <;>
        simp [hi, hj, hk, List.count_cons, Nat.add_comm]

/-- Each triple of `[0,N)³` is updated exactly once by the tiled kernel. -/
theorem count_triples_tile (N block_size i k j : Nat) (hbs : 1 ≤ block_size) :
    List.count (i, k, j) (triples (tileEvents N block_size))
      = if i < N ∧ k < N ∧ j < N then 1 else 0 := by
  rw [count_triples, ksOf_tile N block_size i j hbs]
  by_cases hi : i < N
  · by_cases hj : j < N
    · by_cases hk : k < N
      · have hm : k ∈ List.range' 0 N := by simp [List.mem_range'_1, hk]
        simp [hi, hj, hk, List.count_eq_one_of_mem (List.nodup_range' 0 N) hm]
      · have hm : k ∉ List.range' 0 N := by simp [List.mem_range'_1, hk]
        simp [hi, hj, hk, List.count_eq_zero_of_not_mem hm]
    · simp [hi, hj]
  · simp [hi]

theorem tileEnd_eq_min (s block_size size : Nat) :
    tileEnd s block_size size = min (s + block_size) size := by
  unfold tileEnd
  split <;> omega

theorem tile_event_clipped (N block_size ii kk jj ie ke je : Nat)
    (h : Event.tile ii kk jj ie ke je ∈ tileEvents N block_size) :
    ie = min (ii + block_size) N ∧ ke = min (kk + block_size) N ∧
      je = min (jj + block_size) N := by
  simp only [tileEvents, oneTileEvents, List.mem_flatMap, List.mem_cons,
    List.not_mem_nil, or_false] at h
  obtain ⟨ii1, _, kk1, _, jj1, _, h⟩ := h
  rcases h with h | ⟨i, _, k, _, j, _, h⟩
  · injection h with h1 h2 h3 h4 h5 h6
    subst h1; subst h2; subst h3
    rw [h4, h5, h6]
    exact ⟨tileEnd_eq_min _ _ _, tileEnd_eq_min _ _ _, tileEnd_eq_min _ _ _⟩
  · cases h

theorem safe_of_below (size block_size : Nat) (e : Event) (hb : EventBelow size e)
    (ht : ∀ ii kk jj ie ke je, e = Event.tile ii kk jj ie ke je →
      ii + block_size ≤ INT_MAX ∧ kk + block_size ≤ INT_MAX ∧ jj + block_size ≤ INT_MAX) :
    EventSafe size block_size e := by
  cases e with
  | upd i k j =>
    obtain ⟨hi, hk, hj⟩ := hb
    exact ⟨index_lt hi hk, index_lt hk hj, index_lt hi hj⟩
  | tile ii kk jj ie ke je => exact ht ii kk jj ie ke je rfl

theorem safe_tile (size block_size : Nat) (hsz : size * size ≤ INT_MAX)
    (hbs : block_size ≤ INT_MAX) :
    ∀ e ∈ tileEvents size block_size, EventSafe size block_size e := by
  intro e he
  refine safe_of_below size block_size e (below_tile size block_size e he) ?_
  intro ii kk jj ie ke je heq
  subst heq
  simp only [tileEvents, oneTileEvents, List.mem_flatMap, List.mem_cons,
    List.not_mem_nil, or_false] at he
  obtain ⟨ii1, h1, kk1, h2, jj1, h3, h⟩ := he
  rcases h with h | ⟨i, _, k, _, j, _, h⟩
  · injection h with e1 e2 e3
    subst e1; subst e2; subst e3
    exact ⟨tile_start_fits size block_size _ hsz hbs h1,
      tile_start_fits size block_size _ hsz hbs h2,
      tile_start_fits size block_size _ hsz hbs h3⟩
  · cases h

theorem safe_untiled (size block_size : Nat) (evs : List Event)
    (hb : ∀ e ∈ evs, EventBelow size e)
    (hu : ∀ e ∈ evs, ∃ i k j, e = Event.upd i k j) :
    ∀ e ∈ evs, EventSafe size block_size e := by
  intro e he
  refine safe_of_below size block_size e (hb e he) ?_
  intro ii kk jj ie ke je heq
  obtain ⟨i, k, j, h⟩ := hu e he
  rw [heq] at h
  cases h

theorem upd_naive (size : Nat) : ∀ e ∈ naiveEvents size, ∃ i k j, e = Event.upd i k j := by
  intro e he
  simp only [naiveEvents, List.mem_flatMap, List.mem_singleton] at he
  obtain ⟨i, _, j, _, k, _, rfl⟩ := he
  exact ⟨i, k, j, rfl⟩

theorem upd_loopOpt (size : Nat) :
    ∀ e ∈ loopOptEvents size, ∃ i k j, e = Event.upd i k j := by
  intro e he
  simp only [loopOptEvents, List.mem_flatMap, List.mem_singleton] at he
  obtain ⟨i, _, k, _, j, _, rfl⟩ := he
  exact ⟨i, k, j, rfl⟩

theorem count_any_instance {β : Type} [DecidableEq β] (inst : BEq β) [@LawfulBEq β inst]
    (a : β) (l : List β) :
    @List.count β inst a l = @List.count β instBEqOfDecidableEq a l := by
  induction l with
  | nil => rfl
  | cons b l ih =>
    rw [@List.count_cons β inst, @List.count_cons β instBEqOfDecidableEq, ih]
    congr 1
    by_cases h : b = a <;> simp [h]

theorem coversOnce_tile (N block_size : Nat) (hbs : 1 ≤ block_size) :
    CoversOnce N block_size (tileEvents N block_size) := by
  have hc := fun i k j => count_triples_tile N block_size i k j hbs
  have hnd : (triples (tileEvents N block_size)).Nodup := by
    rw [List.nodup_iff_count_le_one]
    rintro ⟨i, k, j⟩
    rw [← count_any_instance, hc]
    split <;> omega
  have hmem : ∀ i k j, (i, k, j) ∈ triples (tileEvents N block_size)
      ↔ i < N ∧ k < N ∧ j < N := by
    intro i k j
    rw [← List.count_pos_iff, hc]
    by_cases h : i < N ∧ k < N ∧ j < N <;> simp [h]
  refine ⟨hnd, hmem, hc, ?_, ?_⟩
  · refine (List.perm_ext_iff_of_nodup hnd ?_).2 ?_
    · exact List.Nodup.product (List.nodup_range N)
        (List.Nodup.product (List.nodup_range N) (List.nodup_range N))
    · rintro ⟨i, k, j⟩
      rw [hmem]
      simp [List.mem_product]
  · intro ii kk jj ie ke je h
    exact tile_event_clipped N block_size ii kk jj ie ke je h

/-! ## Where the `int` index overflows -/

theorem intAdd_some (a b c : Nat) (h : intAdd a b = some c) : c = a + b := by
  unfold intAdd at h
  split at h
  · exact (Option.some.inj h).symm
  · cases h

/-- A loop that returns has run its body with success at every value it
visits. -/
theorem forLoop_some_body {σ : Type} (hi step : Nat) (body : Nat → σ → Option σ) :
    ∀ (fuel v : Nat) (s s1 : σ), forLoop fuel v hi step body s = some s1 →
      ∀ x ∈ visits fuel v hi step, ∃ t t1, body x t = some t1 := by
  intro fuel
  induction fuel with
  | zero => intro v s s1 _ x hx; simp [visits] at hx
  | succ fuel ih =>
    intro v s s1 h x hx
    by_cases hv : v < hi
    · simp only [visits, hv, if_true, List.mem_cons] at hx
      simp only [forLoop, hv, if_true] at h
      cases hb : body v s with
      | none => rw [hb] at h; cases h
      | some t1 =>
        rw [hb] at h
        cases ha : intAdd v step with
        | none => rw [ha] at h; cases h
        | some v1 =>
          rw [ha] at h
          rcases hx with rfl | hx
          · exact ⟨s, t1, hb⟩
          · have hv1 := intAdd_some v step v1 ha
            subst hv1
            exact ih _ _ _ h x hx
    · simp [visits, hv] at hx

/-- A loop that visits a value at which the body always fails has no result. -/
theorem forLoop_none {σ : Type} (hi step : Nat) (body : Nat → σ → Option σ)
    (fuel v x : Nat) (hx : x ∈ visits fuel v hi step) (hb : ∀ t, body x t = none) (s : σ) :
    forLoop fuel v hi step body s = none := by
  cases h : forLoop fuel v hi step body s with
  | none => rfl
  | some s1 =>
    obtain ⟨t, t1, ht⟩ := forLoop_some_body hi step body fuel v s s1 h x hx
    rw [hb t] at ht
    cases ht

/-- When `size * size` is not an `int`, the index of the last cell overflows. -/
theorem index_overflow (size : Nat) (hov : INT_MAX < size * size) :
    index (size - 1) size (size - 1) = none := by
  have hbig : 46341 ≤ size := by
    by_contra hlt
    have h1 : size ≤ 46340 := by omega
    have h2 : size * size ≤ 46340 * 46340 := Nat.mul_le_mul h1 h1
    have h3 : 46340 * 46340 ≤ INT_MAX := by decide
    omega
  have h4 : 46341 * 46341 ≤ size * size := Nat.mul_le_mul hbig hbig
  have h5 : INT_MAX + 2 ≤ 46341 * 46341 := by decide
  have h6 : (size - 1) * size + (size - 1) + 1 = size * size := by
    obtain ⟨n, rfl⟩ : ∃ n, size = n + 1 := ⟨size - 1, by omega⟩
    simp only [Nat.add_sub_cancel]
    ring
  have h7 : ¬ (size - 1) * size + (size - 1) ≤ INT_MAX := by omega
  by_cases h : (size - 1) * size ≤ INT_MAX
  · simp [index, intMul, intAdd, h, h7]
  · simp [index, intMul, h]

theorem load_overflow (M : List α) (size : Nat) (hov : INT_MAX < size * size) :
    load M (size - 1) size (size - 1) = none := by
  simp [load, index_overflow size hov]

theorem last_mem_visits (size : Nat) (hov : INT_MAX < size * size) :
    size - 1 ∈ visits size 0 size 1 := by
  have hpos : 0 < size := by
    rcases Nat.eq_zero_or_pos size with h | h
    · subst h; simp at hov
    · exact h
  rw [visits_all, List.mem_range'_1]
  omega

/-- The naive kernel has no result when `size * size` is not an `int`. -/
theorem naive_overflow [Add α] [Mul α] (A B C : List α) (size : Nat)
    (hov : INT_MAX < size * size) : naive_mat_mul A B C size = none := by
  have hm := last_mem_visits size hov
  unfold naive_mat_mul
  refine forLoop_none size 1 _ size 0 (size - 1) hm ?_ _
  intro m
  refine forLoop_none size 1 _ size 0 (size - 1) hm ?_ _
  intro m1
  refine forLoop_none size 1 _ size 0 (size - 1) hm ?_ _
  intro m2
  simp only [load_overflow A size hov]

/-- The loop-reordered kernel has no result when `size * size` is not an `int`. -/
theorem loop_opt_overflow [Add α] [Mul α] (A B C : List α) (size : Nat)
    (hov : INT_MAX < size * size) : loop_opt_mat_mul A B C size = none := by
  have hm := last_mem_visits size hov
  unfold loop_opt_mat_mul
  refine forLoop_none size 1 _ size 0 (size - 1) hm ?_ _
  intro m
  refine forLoop_none size 1 _ size 0 (size - 1) hm ?_ _
  intro m1
  simp only [load_overflow A size hov]

theorem clippedEnd_some (s block_size size e : Nat)
    (h : clippedEnd s block_size size = some e) : e = tileEnd s block_size size := by
  unfold clippedEnd at h
  cases ha : intAdd s block_size with
  | none => rw [ha] at h; cases h
  | some v =>
    rw [ha] at h
    have hv := intAdd_some s block_size v ha
    subst hv
    exact (Option.some.inj h).symm

/-- The tiled kernel has no result when `size * size` is not an `int`. -/
theorem tile_overflow [Add α] [Mul α] (A B C : List α) (size block_size : Nat)
    (hbs : 1 ≤ block_size) (hov : INT_MAX < size * size) :
    tile_mat_mul A B C size block_size = none := by
  have hlast : size - 1 ∈ (visits size 0 size block_size).flatMap
      (tileRange size block_size) := by
    rw [tiles_cover_all size block_size hbs, ← visits_all]
    exact last_mem_visits size hov
  obtain ⟨s, hs, hin⟩ := List.mem_flatMap.1 hlast
  unfold tile_mat_mul
  refine forLoop_none size block_size _ size 0 s hs ?_ _
  intro m
  refine forLoop_none size block_size _ size 0 s hs ?_ _
  intro m1
  refine forLoop_none size block_size _ size 0 s hs ?_ _
  intro m2
  cases hc : clippedEnd s block_size size with
  | none => rfl
  | some e =>
    have he := clippedEnd_some s block_size size e hc
    subst he
    have hin2 : size - 1 ∈ visits (tileEnd s block_size size - s) s
        (tileEnd s block_size size) 1 := hin
    show forLoop _ s _ 1 _ _ = none
    refine forLoop_none _ 1 _ _ s (size - 1) hin2 ?_ _
    intro m3
    refine forLoop_none _ 1 _ _ s (size - 1) hin2 ?_ _
    intro m4
    simp only [load_overflow A size hov]

/-! ## Claims on the kernels -/

/-- C1, refuted as stated: at `N = 46341` the product `N * N` is not an `int`;
the index `i * size + k` is still an `int` at `(i, k) = (46340, 41707)` and
overflows at `(46340, 41708)`, where it is `2^31`; none of the four kernels
has a result there, on arrays of `46341 * 46341` scalars with a zero
accumulator. -/
theorem four_kernels_overflow :
    INT_MAX < 46341 * 46341 ∧ 46341 ≤ INT_MAX ∧
    index 46340 46341 41707 = some INT_MAX ∧ index 46340 46341 41708 = none ∧
    naive_mat_mul (List.replicate (46341 * 46341) (1 : Int))
      (List.replicate (46341 * 46341) 1) (List.replicate (46341 * 46341) 0) 46341 = none ∧
    loop_opt_mat_mul (List.replicate (46341 * 46341) (1 : Int))
      (List.replicate (46341 * 46341) 1) (List.replicate (46341 * 46341) 0) 46341 = none ∧
    tile_mat_mul (List.replicate (46341 * 46341) (1 : Int))
      (List.replicate (46341 * 46341) 1) (List.replicate (46341 * 46341) 0) 46341 100
        = none ∧
    combination_mat_mul (List.replicate (46341 * 46341) (1 : Int))
      (List.replicate (46341 * 46341) 1) (List.replicate (46341 * 46341) 0) 46341 100
        = none :=
  ⟨by decide, by decide, by decide, by decide,
    naive_overflow _ _ _ 46341 (by decide), loop_opt_overflow _ _ _ 46341 (by decide),
    tile_overflow _ _ _ 46341 100 (by decide) (by decide),
    tile_overflow _ _ _ 46341 100 (by decide) (by decide)⟩

/-- C1, amended: for every `N` with `N * N` representable in `int`, every
`block_size` with `1 ≤ block_size ≤ INT_MAX` and all `N × N` operands `A`, `B`,
the four kernels started from the all-zero accumulator return, and leave the
same `C`, element for element, over a scalar type with no law of arithmetic
assumed; for every cell `(i, j)` each kernel applies the updates
`C[i][j] += A[i][k] * B[k][j]` in the order `k = 0, 1, ..., N-1`. -/
theorem four_kernels_same_result [Zero α] [Add α] [Mul α] (N block_size : Nat)
    (A B : List α) (hsz : N * N ≤ INT_MAX) (hbs : 1 ≤ block_size)
    (hint : block_size ≤ INT_MAX) (hA : A.length = N * N) (hB : B.length = N * N) :
    ∃ mn ml mt mc : Mem α,
      naive_mat_mul A B (List.replicate (N * N) 0) N = some mn ∧
      loop_opt_mat_mul A B (List.replicate (N * N) 0) N = some ml ∧
      tile_mat_mul A B (List.replicate (N * N) 0) N block_size = some mt ∧
      combination_mat_mul A B (List.replicate (N * N) 0) N block_size = some mc ∧
      ml.C = mn.C ∧ mt.C = mn.C ∧ mc.C = mn.C ∧
      ∀ i j, i < N → j < N →
        ksOf i j mn.log = List.range N ∧ ksOf i j ml.log = List.range N ∧
        ksOf i j mt.log = List.range N ∧ ksOf i j mc.log = List.range N :=
  kernels_agree A B (List.replicate (N * N) 0) N block_size hsz hbs hint hA hB (by simp)

/-- Witness of the amended C1: the theorem at `N = 3`, `block_size = 2` over
the integers. -/
theorem four_kernels_same_result_witness :
    (3 * 3 ≤ INT_MAX) ∧ (1 ≤ 2) ∧ (2 ≤ INT_MAX) ∧
    ([1, 2, 3, 4, 5, 6, 7, 8, 9] : List Int).length = 3 * 3 ∧
    ([9, 8, 7, 6, 5, 4, 3, 2, 1] : List Int).length = 3 * 3 ∧
    ∃ mn ml mt mc : Mem Int,
      naive_mat_mul [1, 2, 3, 4, 5, 6, 7, 8, 9] [9, 8, 7, 6, 5, 4, 3, 2, 1]
        (List.replicate (3 * 3) 0) 3 = some mn ∧
      loop_opt_mat_mul [1, 2, 3, 4, 5, 6, 7, 8, 9] [9, 8, 7, 6, 5, 4, 3, 2, 1]
        (List.replicate (3 * 3) 0) 3 = some ml ∧
      tile_mat_mul [1, 2, 3, 4, 5, 6, 7, 8, 9] [9, 8, 7, 6, 5, 4, 3, 2, 1]
        (List.replicate (3 * 3) 0) 3 2 = some mt ∧
      combination_mat_mul [1, 2, 3, 4, 5, 6, 7, 8, 9] [9, 8, 7, 6, 5, 4, 3, 2, 1]
        (List.replicate (3 * 3) 0) 3 2 = some mc ∧
      ml.C = mn.C ∧ mt.C = mn.C ∧ mc.C = mn.C ∧
      ∀ i j, i < 3 → j < 3 →
        ksOf i j mn.log = List.range 3 ∧ ksOf i j ml.log = List.range 3 ∧
        ksOf i j mt.log = List.range 3 ∧ ksOf i j mc.log = List.range 3 :=
  ⟨by decide, by decide, by decide, rfl, rfl,
    four_kernels_same_result 3 2 [1, 2, 3, 4, 5, 6, 7, 8, 9] [9, 8, 7, 6, 5, 4, 3, 2, 1]
      (by decide) (by decide) (by decide) rfl rfl⟩

/-- C2, refuted as stated: at `N = 46341`, where `N * N` is not an `int`, none
of the four kernels has a result from the non-zero accumulator `C0 = 5`, so no
`C` with `C = C0 + A × B` is produced. -/
theorem accumulate_overflow :
    INT_MAX < 46341 * 46341 ∧ 46341 ≤ INT_MAX ∧
    naive_mat_mul (List.replicate (46341 * 46341) (1 : Int))
      (List.replicate (46341 * 46341) 1) (List.replicate (46341 * 46341) 5) 46341 = none ∧
    loop_opt_mat_mul (List.replicate (46341 * 46341) (1 : Int))
      (List.replicate (46341 * 46341) 1) (List.replicate (46341 * 46341) 5) 46341 = none ∧
    tile_mat_mul (List.replicate (46341 * 46341) (1 : Int))
      (List.replicate (46341 * 46341) 1) (List.replicate (46341 * 46341) 5) 46341 100
        = none ∧
    combination_mat_mul (List.replicate (46341 * 46341) (1 : Int))
      (List.replicate (46341 * 46341) 1) (List.replicate (46341 * 46341) 5) 46341 100
        = none :=
  ⟨by decide, by decide,
    naive_overflow _ _ _ 46341 (by decide), loop_opt_overflow _ _ _ 46341 (by decide),
    tile_overflow _ _ _ 46341 100 (by decide) (by decide),
    tile_overflow _ _ _ 46341 100 (by decide) (by decide)⟩

/-- C2, amended: each of the four kernels accumulates rather than overwrites:
over a commutative ring, for every `N` with `N * N` representable in `int`,
every `block_size` with `1 ≤ block_size ≤ INT_MAX`, all `N × N` matrices `A`,
`B` and every initial accumulator `C0`, each kernel returns a `C` with
`C[i*N+j] = C0[i*N+j] + Σ_{k<N} A[i*N+k] * B[k*N+j]` for all `i, j < N`; and that
`C` is `C0` plus the result of the same kernel on the zero accumulator. -/
theorem kernels_accumulate [CommRing α] (N block_size : Nat) (A B C0 : List α)
    (hsz : N * N ≤ INT_MAX) (hbs : 1 ≤ block_size) (hint : block_size ≤ INT_MAX)
    (hA : A.length = N * N) (hB : B.length = N * N) (hC : C0.length = N * N) :
    ∃ mn ml mt mc zn zl zt zc : Mem α,
      (naive_mat_mul A B C0 N = some mn ∧
        loop_opt_mat_mul A B C0 N = some ml ∧
        tile_mat_mul A B C0 N block_size = some mt ∧
        combination_mat_mul A B C0 N block_size = some mc) ∧
      (naive_mat_mul A B (List.replicate (N * N) 0) N = some zn ∧
        loop_opt_mat_mul A B (List.replicate (N * N) 0) N = some zl ∧
        tile_mat_mul A B (List.replicate (N * N) 0) N block_size = some zt ∧
        combination_mat_mul A B (List.replicate (N * N) 0) N block_size = some zc) ∧
      (ProductAdded A B C0 N mn.C ∧ ProductAdded A B C0 N ml.C ∧
        ProductAdded A B C0 N mt.C ∧ ProductAdded A B C0 N mc.C) ∧
      ∀ i j, i < N → j < N →
        entry mn.C N i j = entry C0 N i j + entry zn.C N i j ∧
        entry ml.C N i j = entry C0 N i j + entry zl.C N i j ∧
        entry mt.C N i j = entry C0 N i j + entry zt.C N i j ∧
        entry mc.C N i j = entry C0 N i j + entry zc.C N i j := by
  have hZ : (List.replicate (N * N) (0 : α)).length = N * N := by simp
  obtain ⟨mn, ml, mt, mc, h1, h2, h3, h4, e2, e3, e4, _⟩ :=
    kernels_agree A B C0 N block_size hsz hbs hint hA hB hC
  obtain ⟨zn, zl, zt, zc, g1, g2, g3, g4, f2, f3, f4, _⟩ :=
    kernels_agree A B (List.replicate (N * N) 0) N block_size hsz hbs hint hA hB hZ
  have hk : ∀ i j, i < N → j < N → ksOf i j (naiveEvents N) = List.range' 0 N := by
    intro i j hi hj
    rw [ksOf_naive]; simp [hi, hj]
  have pn : ProductAdded A B C0 N mn.C := by
    have := naive_run A B C0 N hsz hA hB hC
    rw [h1] at this
    rw [Option.some.inj this]
    exact run_productAdded A B C0 N _ hA hB hC (below_naive N) hk
  have pz : ProductAdded A B (List.replicate (N * N) 0) N zn.C := by
    have := naive_run A B (List.replicate (N * N) 0) N hsz hA hB hZ
    rw [g1] at this
    rw [Option.some.inj this]
    exact run_productAdded A B _ N _ hA hB hZ (below_naive N) hk
  refine ⟨mn, ml, mt, mc, zn, zl, zt, zc, ⟨h1, h2, h3, h4⟩, ⟨g1, g2, g3, g4⟩, ?_, ?_⟩
  · rw [e2, e3, e4]; exact ⟨pn, pn, pn, pn⟩
  · intro i j hi hj
    rw [e2, e3, e4, f2, f3, f4]
    have := productAdded_zeros A B C0 mn.C zn.C N pn pz i j hi hj
    exact ⟨this, this, this, this⟩

/-- Witness of the amended C2: the theorem at `N = 2`, `block_size = 1` over
the integers, from a non-zero accumulator. -/
theorem kernels_accumulate_witness :
    (2 * 2 ≤ INT_MAX) ∧ (1 ≤ 1) ∧ (1 ≤ INT_MAX) ∧
    ([1, 2, 3, 4] : List Int).length = 2 * 2 ∧
    ([5, 6, 7, 8] : List Int).length = 2 * 2 ∧
    ([10, 20, 30, 40] : List Int).length = 2 * 2 ∧
    (naive_mat_mul [1, 2, 3, 4] [5, 6, 7, 8] [10, 20, 30, 40] 2).map (fun m => m.C)
      = some ([29, 42, 73, 90] : List Int) ∧
    ∃ mn ml mt mc zn zl zt zc : Mem Int,
      (naive_mat_mul [1, 2, 3, 4] [5, 6, 7, 8] [10, 20, 30, 40] 2 = some mn ∧
        loop_opt_mat_mul [1, 2, 3, 4] [5, 6, 7, 8] [10, 20, 30, 40] 2 = some ml ∧
        tile_mat_mul [1, 2, 3, 4] [5, 6, 7, 8] [10, 20, 30, 40] 2 1 = some mt ∧
        combination_mat_mul [1, 2, 3, 4] [5, 6, 7, 8] [10, 20, 30, 40] 2 1 = some mc) ∧
      (naive_mat_mul [1, 2, 3, 4] [5, 6, 7, 8] (List.replicate (2 * 2) 0) 2 = some zn ∧
        loop_opt_mat_mul [1, 2, 3, 4] [5, 6, 7, 8] (List.replicate (2 * 2) 0) 2 = some zl ∧
        tile_mat_mul [1, 2, 3, 4] [5, 6, 7, 8] (List.replicate (2 * 2) 0) 2 1 = some zt ∧
        combination_mat_mul [1, 2, 3, 4] [5, 6, 7, 8] (List.replicate (2 * 2) 0) 2 1
          = some zc) ∧
      (ProductAdded [1, 2, 3, 4] [5, 6, 7, 8] [10, 20, 30, 40] 2 mn.C ∧
        ProductAdded [1, 2, 3, 4] [5, 6, 7, 8] [10, 20, 30, 40] 2 ml.C ∧
        ProductAdded [1, 2, 3, 4] [5, 6, 7, 8] [10, 20, 30, 40] 2 mt.C ∧
        ProductAdded [1, 2, 3, 4] [5, 6, 7, 8] [10, 20, 30, 40] 2 mc.C) ∧
      ∀ i j, i < 2 → j < 2 →
        entry mn.C 2 i j = entry [10, 20, 30, 40] 2 i j + entry zn.C 2 i j ∧
        entry ml.C 2 i j = entry [10, 20, 30, 40] 2 i j + entry zl.C 2 i j ∧
        entry mt.C 2 i j = entry [10, 20, 30, 40] 2 i j + entry zt.C 2 i j ∧
        entry mc.C 2 i j = entry [10, 20, 30, 40] 2 i j + entry zc.C 2 i j :=
  ⟨by decide, by decide, by decide, rfl, rfl, rfl, by decide,
    kernels_accumulate 2 1 [1, 2, 3, 4] [5, 6, 7, 8] [10, 20, 30, 40]
      (by decide) (by decide) (by decide) rfl rfl rfl⟩

/-- C3, refuted as stated: at `N = block_size = 46341`, where `0 + block_size`
is an `int` but `N * N` is not, neither `tile_mat_mul` nor `loop_opt_mat_mul`
has a result, so no tile is completed and no `C` is left. -/
theorem single_tile_overflow :
    INT_MAX < 46341 * 46341 ∧ (1 ≤ 46341) ∧ (46341 ≤ 46341) ∧
    intAdd 0 46341 = some 46341 ∧
    tile_mat_mul (List.replicate (46341 * 46341) (1 : Int))
      (List.replicate (46341 * 46341) 1) (List.replicate (46341 * 46341) 0) 46341 46341
        = none ∧
    loop_opt_mat_mul (List.replicate (46341 * 46341) (1 : Int))
      (List.replicate (46341 * 46341) 1) (List.replicate (46341 * 46341) 0) 46341 = none :=
  ⟨by decide, by decide, by decide, by decide,
    tile_overflow _ _ _ 46341 46341 (by decide) (by decide),
    loop_opt_overflow _ _ _ 46341 (by decide)⟩

/-- C3, amended: for every `N ≥ 1` with `N * N` representable in `int` and
every `block_size ≥ N` that is an `int` (so that `ii + block_size` does not
overflow), `tile_mat_mul` enters exactly one tile, the tile `ii = kk = jj = 0`
with `i_end = k_end = j_end = N`, and for all `N × N` arrays `A`, `B`, `C` it
leaves `C` equal to what `loop_opt_mat_mul` leaves, performing the same
`(i, k, j)` updates in the same order. -/
theorem single_tile_reproduces_loop_opt [Add α] [Mul α] (N block_size : Nat)
    (A B C : List α) (hsz : N * N ≤ INT_MAX) (hN : 1 ≤ N) (hbs : N ≤ block_size)
    (hint : block_size ≤ INT_MAX) (hA : A.length = N * N)
    (hB : B.length = N * N) (hC : C.length = N * N) :
    ∃ mt ml : Mem α,
      tile_mat_mul A B C N block_size = some mt ∧
      loop_opt_mat_mul A B C N = some ml ∧
      tilesOf mt.log = [Event.tile 0 0 0 N N N] ∧
      mt.log = Event.tile 0 0 0 N N N :: ml.log ∧
      triples mt.log = triples ml.log ∧
      mt.C = ml.C := by
  have h1 := tile_run A B C N block_size hsz (by omega) hint hA hB hC
  rw [tileEvents_single N block_size hN hbs] at h1
  refine ⟨_, _, h1, loop_opt_run A B C N hsz hA hB hC, ?_, ?_, ?_, ?_⟩
  · have h := tilesOf_loopOpt N
    unfold tilesOf at h ⊢
    simp [run_log, List.filter_cons, h]
  · simp [run_log]
  · simp [run_log, triples]
  · rw [run_cons]
    exact run_C_congr_log A B N _ _ _ rfl

/-- Witness of the amended C3: the theorem at `N = 2`, `block_size = 5` over
the integers. -/
theorem single_tile_reproduces_loop_opt_witness :
    (2 * 2 ≤ INT_MAX) ∧ (1 ≤ 2) ∧ (2 ≤ 5) ∧ (5 ≤ INT_MAX) ∧
    ([1, 2, 3, 4] : List Int).length = 2 * 2 ∧
    ([5, 6, 7, 8] : List Int).length = 2 * 2 ∧
    ([10, 20, 30, 40] : List Int).length = 2 * 2 ∧
    ∃ mt ml : Mem Int,
      tile_mat_mul [1, 2, 3, 4] [5, 6, 7, 8] [10, 20, 30, 40] 2 5 = some mt ∧
      loop_opt_mat_mul [1, 2, 3, 4] [5, 6, 7, 8] [10, 20, 30, 40] 2 = some ml ∧
      tilesOf mt.log = [Event.tile 0 0 0 2 2 2] ∧
      mt.log = Event.tile 0 0 0 2 2 2 :: ml.log ∧
      triples mt.log = triples ml.log ∧
      mt.C = ml.C :=
  ⟨by decide, by decide, by decide, by decide, rfl, rfl, rfl,
    single_tile_reproduces_loop_opt 2 5 [1, 2, 3, 4] [5, 6, 7, 8] [10, 20, 30, 40]
      (by decide) (by decide) (by decide) (by decide) rfl rfl rfl⟩

/-- C4, refuted as stated: at `N = 46341`, `block_size = 100`, where `N * N`
is not an `int`, neither tiled kernel has a result: the run stops at the first
index that overflows, before the triples of `[0,N)³` have all been visited. -/
theorem tiles_overflow :
    INT_MAX < 46341 * 46341 ∧ 46341 ≤ INT_MAX ∧ (1 ≤ 100) ∧
    tile_mat_mul (List.replicate (46341 * 46341) (2 : Int))
      (List.replicate (46341 * 46341) 3) (List.replicate (46341 * 46341) 0) 46341 100
        = none ∧
    combination_mat_mul (List.replicate (46341 * 46341) (2 : Int))
      (List.replicate (46341 * 46341) 3) (List.replicate (46341 * 46341) 0) 46341 100
        = none :=
  ⟨by decide, by decide, by decide,
    tile_overflow _ _ _ 46341 100 (by decide) (by decide),
    tile_overflow _ _ _ 46341 100 (by decide) (by decide)⟩

/-- C4, amended: for every `N` with `N * N` representable in `int` and every
`block_size` with `1 ≤ block_size ≤ INT_MAX`, also when `N` is not a multiple
of `block_size`, the index triples `(i, k, j)` at which `tile_mat_mul`, and
likewise `combination_mat_mul`, executes its innermost update are a
permutation of `[0,N) × [0,N) × [0,N)`: each triple occurs exactly once; every
tile is clipped at `min (start + block_size) N`. -/
theorem tiles_cover_each_triple_once [Add α] [Mul α] (N block_size : Nat)
    (A B C : List α) (hsz : N * N ≤ INT_MAX) (hbs : 1 ≤ block_size)
    (hint : block_size ≤ INT_MAX) (hA : A.length = N * N)
    (hB : B.length = N * N) (hC : C.length = N * N) :
    ∃ mt mc : Mem α,
      tile_mat_mul A B C N block_size = some mt ∧
      combination_mat_mul A B C N block_size = some mc ∧
      CoversOnce N block_size mt.log ∧ CoversOnce N block_size mc.log := by
  have h1 := tile_run A B C N block_size hsz hbs hint hA hB hC
  have h2 : combination_mat_mul A B C N block_size
      = some (run A B N (tileEvents N block_size) ⟨C, []⟩) := by
    rw [combination_eq_tile]; exact h1
  have hlog : (run A B N (tileEvents N block_size) (⟨C, []⟩ : Mem α)).log
      = tileEvents N block_size := by simp [run_log]
  refine ⟨_, _, h1, h2, ?_, ?_⟩ <;> rw [hlog] <;> exact coversOnce_tile N block_size hbs

/-- Witness of the amended C4: the theorem at `N = 3`, `block_size = 2` (a
clipped boundary tile) over the integers. -/
theorem tiles_cover_each_triple_once_witness :
    (3 * 3 ≤ INT_MAX) ∧ (1 ≤ 2) ∧ (2 ≤ INT_MAX) ∧
    ([1, 0, 0, 0, 1, 0, 0, 0, 1] : List Int).length = 3 * 3 ∧
    ([1, 2, 3, 4, 5, 6, 7, 8, 9] : List Int).length = 3 * 3 ∧
    (List.replicate 9 (0 : Int)).length = 3 * 3 ∧
    ∃ mt mc : Mem Int,
      tile_mat_mul [1, 0, 0, 0, 1, 0, 0, 0, 1] [1, 2, 3, 4, 5, 6, 7, 8, 9]
        (List.replicate 9 0) 3 2 = some mt ∧
      combination_mat_mul [1, 0, 0, 0, 1, 0, 0, 0, 1] [1, 2, 3, 4, 5, 6, 7, 8, 9]
        (List.replicate 9 0) 3 2 = some mc ∧
      CoversOnce 3 2 mt.log ∧ CoversOnce 3 2 mc.log :=
  ⟨by decide, by decide, by decide, rfl, rfl, rfl,
    tiles_cover_each_triple_once 3 2 [1, 0, 0, 0, 1, 0, 0, 0, 1]
      [1, 2, 3, 4, 5, 6, 7, 8, 9] (List.replicate 9 0)
      (by decide) (by decide) (by decide) rfl rfl rfl⟩

/-- C9, refuted as stated: at `N = 2`, `block_size = 2` the second update of
`tile_mat_mul` is `(i, k, j) = (0, 0, 1)`, the `j` loop being innermost, where
the `(i, j, k)` nesting would give `(0, 1, 0)`; and there are no `N ≥ 2`,
`block_size ≥ 1` and arrays for which the sequences of triples of
`tile_mat_mul` and `combination_mat_mul` differ. -/
theorem tile_order_not_naive :
    (tile_mat_mul ([1, 2, 3, 4] : List Int) [5, 6, 7, 8] [0, 0, 0, 0] 2 2).map
          (fun m => triples m.log)
        = some [(0, 0, 0), (0, 0, 1), (0, 1, 0), (0, 1, 1),
                (1, 0, 0), (1, 0, 1), (1, 1, 0), (1, 1, 1)] ∧
      (naive_mat_mul ([1, 2, 3, 4] : List Int) [5, 6, 7, 8] [0, 0, 0, 0] 2).map
          (fun m => triples m.log)
        = some [(0, 0, 0), (0, 1, 0), (0, 0, 1), (0, 1, 1),
                (1, 0, 0), (1, 1, 0), (1, 0, 1), (1, 1, 1)] ∧
      ¬ ∃ (N block_size : Nat) (A B C : List Int), 2 ≤ N ∧ 1 ≤ block_size ∧
          (tile_mat_mul A B C N block_size).map (fun m => triples m.log)
            ≠ (combination_mat_mul A B C N block_size).map (fun m => triples m.log) := by
  refine ⟨by decide, by decide, ?_⟩
  rintro ⟨N, block_size, A, B, C, _, _, h⟩
  exact h rfl

/-- C9, amended: `tile_mat_mul` and `combination_mat_mul` return the same
state, log included, on every input; on `N × N` arrays with `N * N`
representable in `int` and `1 ≤ block_size ≤ INT_MAX` both return and the log
is `tileEvents N block_size`: tiles in the order `ii`, `kk`, `jj`, and inside
each tile the nesting `i`, `k`, `j` for both kernels. -/
theorem tile_and_combination_same_order [Add α] [Mul α] (N block_size : Nat)
    (A B C : List α) (hsz : N * N ≤ INT_MAX) (hbs : 1 ≤ block_size)
    (hint : block_size ≤ INT_MAX) (hA : A.length = N * N)
    (hB : B.length = N * N) (hC : C.length = N * N) :
    tile_mat_mul A B C N block_size = combination_mat_mul A B C N block_size ∧
    ∃ m : Mem α, tile_mat_mul A B C N block_size = some m ∧
      combination_mat_mul A B C N block_size = some m ∧
      m.log = tileEvents N block_size := by
  have h1 := tile_run A B C N block_size hsz hbs hint hA hB hC
  refine ⟨rfl, _, h1, ?_, ?_⟩
  · rw [combination_eq_tile]; exact h1
  · simp [run_log]

/-- Witness of the amended C9 at `N = 2`, `block_size = 2` over the integers. -/
theorem tile_and_combination_same_order_witness :
    (2 * 2 ≤ INT_MAX) ∧ (1 ≤ 2) ∧ (2 ≤ INT_MAX) ∧
    ([1, 2, 3, 4] : List Int).length = 2 * 2 ∧
    ([5, 6, 7, 8] : List Int).length = 2 * 2 ∧
    ([0, 0, 0, 0] : List Int).length = 2 * 2 ∧
    (tile_mat_mul ([1, 2, 3, 4] : List Int) [5, 6, 7, 8] [0, 0, 0, 0] 2 2
      = combination_mat_mul [1, 2, 3, 4] [5, 6, 7, 8] [0, 0, 0, 0] 2 2 ∧
    ∃ m : Mem Int, tile_mat_mul [1, 2, 3, 4] [5, 6, 7, 8] [0, 0, 0, 0] 2 2 = some m ∧
      combination_mat_mul [1, 2, 3, 4] [5, 6, 7, 8] [0, 0, 0, 0] 2 2 = some m ∧
      m.log = tileEvents 2 2) :=
  ⟨by decide, by decide, by decide, rfl, rfl, rfl,
    tile_and_combination_same_order 2 2 [1, 2, 3, 4] [5, 6, 7, 8] [0, 0, 0, 0]
      (by decide) (by decide) (by decide) rfl rfl rfl⟩

/-- C10: index safety.  For every `size` with `size * size` representable in
`int`, every `block_size ≥ 1` that is an `int`, and arrays `A`, `B`, `C` of
length `size * size`, each of the four kernels returns (no access leaves its
array), every index `i*size+k`, `k*size+j`, `i*size+j` it uses lies in
`[0, size*size)`, and every sum `start + block_size` it forms is at most
`INT_MAX`. -/
theorem index_safety [Add α] [Mul α] (size block_size : Nat) (A B C : List α)
    (hsz : size * size ≤ INT_MAX) (hbs : 1 ≤ block_size) (hint : block_size ≤ INT_MAX)
    (hA : A.length = size * size) (hB : B.length = size * size)
    (hC : C.length = size * size) :
    ∃ mn ml mt mc : Mem α,
      naive_mat_mul A B C size = some mn ∧
      loop_opt_mat_mul A B C size = some ml ∧
      tile_mat_mul A B C size block_size = some mt ∧
      combination_mat_mul A B C size block_size = some mc ∧
      (∀ e ∈ mn.log, EventSafe size block_size e) ∧
      (∀ e ∈ ml.log, EventSafe size block_size e) ∧
      (∀ e ∈ mt.log, EventSafe size block_size e) ∧
      (∀ e ∈ mc.log, EventSafe size block_size e) := by
  have h3 := tile_run A B C size block_size hsz hbs hint hA hB hC
  have h4 : combination_mat_mul A B C size block_size
      = some (run A B size (tileEvents size block_size) ⟨C, []⟩) := by
    rw [combination_eq_tile]; exact h3
  refine ⟨_, _, _, _, naive_run A B C size hsz hA hB hC,
    loop_opt_run A B C size hsz hA hB hC, h3, h4, ?_, ?_, ?_, ?_⟩
  · simp only [run_log, List.nil_append]
    exact safe_untiled size block_size _ (below_naive size) (upd_naive size)
  · simp only [run_log, List.nil_append]
    exact safe_untiled size block_size _ (below_loopOpt size) (upd_loopOpt size)
  · simp only [run_log, List.nil_append]
    exact safe_tile size block_size hsz hint
  · simp only [run_log, List.nil_append]
    exact safe_tile size block_size hsz hint

/-- Witness of C10: the theorem at `size = 3`, `block_size = 2` over the integers. -/
theorem index_safety_witness :
    (3 * 3 ≤ INT_MAX) ∧ (1 ≤ 2) ∧ (2 ≤ INT_MAX) ∧
    ([1, 0, 0, 0, 1, 0, 0, 0, 1] : List Int).length = 3 * 3 ∧
    ([1, 2, 3, 4, 5, 6, 7, 8, 9] : List Int).length = 3 * 3 ∧
    (List.replicate 9 (0 : Int)).length = 3 * 3 ∧
    ∃ mn ml mt mc : Mem Int,
      naive_mat_mul [1, 0, 0, 0, 1, 0, 0, 0, 1] [1, 2, 3, 4, 5, 6, 7, 8, 9]
        (List.replicate 9 0) 3 = some mn ∧
      loop_opt_mat_mul [1, 0, 0, 0, 1, 0, 0, 0, 1] [1, 2, 3, 4, 5, 6, 7, 8, 9]
        (List.replicate 9 0) 3 = some ml ∧
      tile_mat_mul [1, 0, 0, 0, 1, 0, 0, 0, 1] [1, 2, 3, 4, 5, 6, 7, 8, 9]
        (List.replicate 9 0) 3 2 = some mt ∧
      combination_mat_mul [1, 0, 0, 0, 1, 0, 0, 0, 1] [1, 2, 3, 4, 5, 6, 7, 8, 9]
        (List.replicate 9 0) 3 2 = some mc ∧
      (∀ e ∈ mn.log, EventSafe 3 2 e) ∧
      (∀ e ∈ ml.log, EventSafe 3 2 e) ∧
      (∀ e ∈ mt.log, EventSafe 3 2 e) ∧
      (∀ e ∈ mc.log, EventSafe 3 2 e) :=
  ⟨by decide, by decide, by decide, rfl, rfl, rfl,
    index_safety 3 2 [1, 0, 0, 0, 1, 0, 0, 0, 1] [1, 2, 3, 4, 5, 6, 7, 8, 9]
      (List.replicate 9 0) (by decide) (by decide) (by decide) rfl rfl rfl⟩

/-! ## The identity matrix as left operand -/

/-- More fuel does not change a sweep that has finished. -/
theorem sweepLoop_succ : ∀ (fuel kb : Nat) (acc r : List Nat),
    sweepLoop fuel kb acc = some r → sweepLoop (fuel + 1) kb acc = some r := by
  intro fuel
  induction fuel with
  | zero =>
    intro kb acc r h
    by_cases hk : kb ≤ 24000
    · simp [sweepLoop, hk] at h
    · simpa [sweepLoop, hk] using h
  | succ fuel ih =>
    intro kb acc r h
    by_cases hk : kb ≤ 24000
    · by_cases ho : kb * 2 ≤ INT_MAX ∧ kb + 1024 ≤ INT_MAX
      · rw [sweepLoop] at h ⊢
        simp only [hk, ho, and_self, if_true] at h ⊢
        exact ih _ _ _ h
      · rw [sweepLoop] at h
        simp [hk, ho] at h
    · rw [sweepLoop] at h ⊢
      simpa [hk] using h

theorem sweepLoop_mono (fuel kb : Nat) (acc r : List Nat)
    (h : sweepLoop fuel kb acc = some r) :
    ∀ extra, sweepLoop (fuel + extra) kb acc = some r := by
  intro extra
  induction extra with
  | zero => exact h
  | succ extra ih => exact sweepLoop_succ _ _ _ _ ih

theorem sizes_kb_value : sizes_kb 33 = some sweepValues := by decide

/-- C5, refuted as stated: the sweep does not reach the cap; `24000` is not an
element of `sizes_kb`, whose last two elements are `22528` and `23552`. -/
theorem sweep_misses_cap :
    ∃ L : List Nat, sizes_kb 33 = some L ∧ 24000 ∉ L ∧
      L.getLast? = some 23552 ∧ L.dropLast.getLast? = some 22528 :=
  ⟨sweepValues, by decide, by decide, by decide, by decide⟩

/-- C5, amended: the list `sizes_kb` stops below the cap.  Its last element is
`23552`, the largest value of the progression that is at most `24000`: every
element is at most `24000`, the value that would follow, `min (23552 * 2)
(23552 + 1024) = 24576`, exceeds the cap, and `24000` itself is not in the list. -/
theorem sweep_ends_below_cap :
    ∃ L : List Nat, sizes_kb 33 = some L ∧ L.getLast? = some 23552 ∧
      (∀ kb ∈ L, kb ≤ 24000) ∧ min (23552 * 2) (23552 + 1024) = 24576 ∧
      24000 < 24576 ∧ 24000 ∉ L :=
  ⟨sweepValues, by decide, by decide, by decide, by decide, by decide, by decide⟩

/-- C6: the sweep loop terminates, after 33 iterations: with any fuel of at
least 33 it returns the same list of 33 elements; the list is non-decreasing
(each element is at least the one before it), every element lies in
`[1, 24000]`, and for every `kb` pushed neither `kb * 2` nor `kb + 1024`
exceeds `INT_MAX`. -/
theorem sweep_terminates_monotone :
    ∃ L : List Nat, (∀ fuel, 33 ≤ fuel → sizes_kb fuel = some L) ∧ L.length = 33 ∧
      List.Chain' (fun a b => a ≤ b) L ∧ (∀ kb ∈ L, 1 ≤ kb ∧ kb ≤ 24000) ∧
      (∀ kb ∈ L, kb * 2 ≤ INT_MAX ∧ kb + 1024 ≤ INT_MAX) := by
  refine ⟨sweepValues, ?_, by decide, by simp [sweepValues], by decide, by decide⟩
  intro fuel hf
  have h := sweepLoop_mono 33 1 [] sweepValues sizes_kb_value (fuel - 33)
  have e : 33 + (fuel - 33) = fuel := by omega
  rw [e] at h
  exact h

/-! ## The divisor of `measure_time_rdtsc` -/

end CacheLab
